import Mathlib

/-!
# Nystrom approximation of a matrix-valued kernel (statismo core)

Shallow embedding of `statismo/core/Nystrom.h`.

* Eigen matrices and vectors are records of a run-time shape and a coefficient
  function; a coefficient write is a functional update.
* The scalar type is a parameter `α`: the Gram matrix only copies kernel values
  (the `float → double` widening is exact and is the identity here); the
  normalisation of the constructor is stated over an arbitrary field together with
  a square-root function, so that it can be read over the reals and evaluated over
  the rationals.
* `unsigned` counters and sizes are natural numbers: the sizes `n * kernelDim` and
  `numComponents * kernelDim` are taken to fit the 32-bit type, and every index formed
  below is smaller than such a size, so no computation wraps.
* The source itself contains no check and no `throw`. Eigen block accessors
  (`leftCols`, `topRows`, `col`), products and block assignments state their bounds with
  `eigen_assert`, which aborts in a debug build and is compiled out under `NDEBUG`.
  `Nystrom.construct` and `Nystrom.ComputeEigenfunctionsAtPoint` are the build with the
  assertions on, an assertion that does not hold being an error; the theorems use them
  to show that no assertion is violated. `Nystrom.constructNoAssert` is the constructor
  with the assertions compiled out.
* `std::random_shuffle` draws a permutation from the shared random stream; the
  permutation is an explicit argument.
-/

namespace statismo

/-! ## Counted loops -/

/-- The loop `for (unsigned i = lo; i < hi; ++i) s = body i s`. -/
def forLoop {σ : Type} (lo hi : Nat) (body : Nat → σ → σ) (s : σ) : σ :=
  (List.range' lo (hi - lo)).foldl (fun acc i => body i acc) s

/-! ## Eigen matrices and vectors -/

/-- Dense dynamically sized matrix (`MatrixType`, `MatrixTypeDoublePrecision`). -/
structure MatrixType (α : Type) where
  rows : Nat
  cols : Nat
  coeff : Nat → Nat → α

/-- Dense dynamically sized column vector (`VectorType`). -/
structure VectorType (α : Type) where
  rows : Nat
  coeff : Nat → α

/-- The matrix `MatrixType::Zero(r, c)`. -/
def MatrixType.Zero {α : Type} [Zero α] (r c : Nat) : MatrixType α :=
  ⟨r, c, fun _ _ => 0⟩

/-- The assignment `K(r, c) = v`. -/
def MatrixType.coeffRef {α : Type} (K : MatrixType α) (r c : Nat) (v : α) : MatrixType α :=
  { K with coeff := fun x y => if x = r ∧ y = c then v else K.coeff x y }

/-- Failure of an Eigen assertion. -/
inductive EigenError where
  | outOfRange
  | sizeMismatch
  deriving DecidableEq

/-- The loop `for (unsigned i = lo; i < hi; ++i)` whose body may fail. -/
def forLoopE {σ ε : Type} (lo hi : Nat) (body : Nat → σ → Except ε σ) (s : σ) : Except ε σ :=
  (List.range' lo (hi - lo)).foldlM (fun acc i => body i acc) s

/-- The block `A.leftCols(n)` with Eigen's assertion on: `eigen_assert` requires
`n ≤ A.cols()`. The source makes no check of its own. -/
def MatrixType.leftCols {α : Type} (A : MatrixType α) (n : Nat) :
    Except EigenError (MatrixType α) :=
  if n ≤ A.cols then .ok ⟨A.rows, n, A.coeff⟩ else .error .outOfRange

/-- The block `v.topRows(n)` of a column vector with Eigen's assertion on:
`eigen_assert` requires `n ≤ v.rows()`. The source makes no check of its own. -/
def VectorType.topRows {α : Type} (v : VectorType α) (n : Nat) :
    Except EigenError (VectorType α) :=
  if n ≤ v.rows then .ok ⟨n, v.coeff⟩ else .error .outOfRange

/-- The column `A.col(j)`, a matrix with one column. -/
def MatrixType.col {α : Type} (A : MatrixType α) (j : Nat) :
    Except EigenError (MatrixType α) :=
  if j < A.cols then .ok ⟨A.rows, 1, fun r _ => A.coeff r j⟩ else .error .outOfRange

/-- The diagonal of `v.asDiagonal().inverse()`: the coefficient-wise inverse. -/
def VectorType.cwiseInverse {α : Type} [One α] [Div α] (v : VectorType α) : VectorType α :=
  ⟨v.rows, fun i => 1 / v.coeff i⟩

/-- The product `A * v.asDiagonal()`: column `j` of `A` scaled by `v(j)`. -/
def MatrixType.mulDiagonal {α : Type} [Mul α] (A : MatrixType α) (v : VectorType α) :
    Except EigenError (MatrixType α) :=
  if A.cols = v.rows then .ok ⟨A.rows, v.rows, fun r c => A.coeff r c * v.coeff c⟩
  else .error .sizeMismatch

/-- The product `s * A` of a scalar and a matrix. -/
def MatrixType.smul {α : Type} [Mul α] (A : MatrixType α) (s : α) : MatrixType α :=
  ⟨A.rows, A.cols, fun r c => s * A.coeff r c⟩

/-- The product `s * v` of a scalar and a vector. -/
def VectorType.smul {α : Type} [Mul α] (v : VectorType α) (s : α) : VectorType α :=
  ⟨v.rows, fun i => s * v.coeff i⟩

/-- The matrix product `A * B`. -/
def MatrixType.mul {α : Type} [Semiring α] (A B : MatrixType α) :
    Except EigenError (MatrixType α) :=
  if A.cols = B.rows then
    .ok ⟨A.rows, B.cols, fun r c => ∑ l in Finset.range A.cols, A.coeff r l * B.coeff l c⟩
  else .error .sizeMismatch

/-- The coefficients of `A` after the block at `(startRow, startCol)` of size
`blockRows × blockCols` has been overwritten with `B`. -/
def MatrixType.writeBlock {α : Type} (A : MatrixType α)
    (startRow startCol blockRows blockCols : Nat) (B : MatrixType α) : MatrixType α :=
  { A with coeff := fun x y =>
      if startRow ≤ x ∧ x < startRow + blockRows ∧ startCol ≤ y ∧ y < startCol + blockCols
      then B.coeff (x - startRow) (y - startCol) else A.coeff x y }

/-- The assignment `A.block(startRow, startCol, blockRows, blockCols) = B`: the block has
to lie inside `A` and `B` has to have the shape of the block. -/
def MatrixType.setBlock {α : Type} (A : MatrixType α)
    (startRow startCol blockRows blockCols : Nat) (B : MatrixType α) :
    Except EigenError (MatrixType α) :=
  if startRow + blockRows ≤ A.rows ∧ startCol + blockCols ≤ A.cols then
    if B.rows = blockRows ∧ B.cols = blockCols then
      .ok (A.writeBlock startRow startCol blockRows blockCols B)
    else .error .sizeMismatch
  else .error .outOfRange

/-! ## Collaborators -/

/-- Modelled from the spec: `Domain` (statismo/core/Domain.h is not among the sources),
"an ordered collection of points of a fixed point type; exposes a count and a
materializable list of its points". -/
structure Domain (P : Type) where
  m_domainPoints : List P

/-- The list of the points of the domain. -/
def Domain.GetDomainPoints {P : Type} (d : Domain P) : List P := d.m_domainPoints

/-- The number of points of the domain. -/
def Domain.GetNumberOfPoints {P : Type} (d : Domain P) : Nat := d.m_domainPoints.length

/-- Modelled from the spec: `Representer` (statismo/core/Representer.h is not among the
sources); the core only calls `GetDomain()`. -/
structure Representer (P : Type) where
  GetDomain : Domain P

/-- Modelled from the spec: the result of the randomized eigensolver `RandSVD`
(statismo/core/RandSVD.h is not among the sources): "given a symmetric matrix and a
target rank, returns an orthonormal matrix of approximate eigenvectors and a vector of
non-negative approximate eigenvalues, sorted descending". -/
structure RandSVD (α : Type) where
  MatrixU : MatrixType α
  SingularValues : VectorType α

/-- Modelled from the spec: `MatrixValuedKernel` (statismo/core/Kernels.h is not among
the sources), "a callable object mapping a pair of points to a `d×d` matrix
(d = kernel dimension), plus `GetDimension()`". -/
structure MatrixValuedKernel (P α : Type) where
  GetDimension : Nat
  call : P → P → MatrixType α
  call_rows : ∀ x y, (call x y).rows = GetDimension
  call_cols : ∀ x y, (call x y).cols = GetDimension

/-! ## The kernel (Gram) matrix of `ComputeKernelMatrixDecomposition` -/

/-- Lines 152-154: the two writes of one kernel coefficient. -/
def kernelMatrixElem {α : Type} (kernelDim i j : Nat) (k_xixj : MatrixType α)
    (d1 d2 : Nat) (K : MatrixType α) : MatrixType α :=
  let elem_d1d2 := k_xixj.coeff d1 d2
  (K.coeffRef (i * kernelDim + d1) (j * kernelDim + d2) elem_d1d2).coeffRef
    (j * kernelDim + d2) (i * kernelDim + d1) elem_d1d2

/-- Lines 148-156: the loops over `d1` and `d2` for one pair of points. -/
def kernelMatrixBlock {α : Type} (kernelDim i j : Nat) (k_xixj : MatrixType α)
    (K : MatrixType α) : MatrixType α :=
  forLoop 0 kernelDim (fun d1 K =>
    forLoop 0 kernelDim (fun d2 K => kernelMatrixElem kernelDim i j k_xixj d1 d2 K) K) K

/-- Lines 145-157: the loop over `j = i, ..., n - 1` for one `i`. -/
def kernelMatrixRow {P α : Type} [Inhabited P] (kernel : MatrixValuedKernel P α)
    (xs : List P) (i : Nat) (K : MatrixType α) : MatrixType α :=
  forLoop i xs.length (fun j K =>
    let k_xixj := kernel.call (xs.getD i default) (xs.getD j default)
    kernelMatrixBlock kernel.GetDimension i j k_xixj K) K

/-- Lines 139-158: the matrix `K` assembled by `ComputeKernelMatrixDecomposition`. -/
def kernelMatrix {P α : Type} [Zero α] [Inhabited P] (kernel : MatrixValuedKernel P α)
    (xs : List P) : MatrixType α :=
  let kernelDim := kernel.GetDimension
  let n := xs.length
  forLoop 0 n (fun i K => kernelMatrixRow kernel xs i K)
    (MatrixType.Zero (n * kernelDim) (n * kernelDim))

/-- Lines 160-163: the solver is run on `K` with target rank `numComponents * kernelDim`;
the casts to the working precision are the identity. -/
def ComputeKernelMatrixDecomposition {P α : Type} [Zero α] [Inhabited P]
    (svd : MatrixType α → Nat → RandSVD α) (kernel : MatrixValuedKernel P α)
    (xs : List P) (numComponents : Nat) : MatrixType α × VectorType α :=
  let kernelDim := kernel.GetDimension
  let K := kernelMatrix kernel xs
  let s := svd K (numComponents * kernelDim)
  (s.MatrixU, s.SingularValues)

/-! ## Landmark sampling -/

/-- The call `std::random_shuffle(begin, end)`: the list rearranged by the permutation `p`
of its positions that the shared random stream produces. -/
def random_shuffle {P : Type} (l : List P) (p : Equiv.Perm (Fin l.length)) : List P :=
  List.ofFn (fun i => l.get (p i))

/-- The call `v.resize(n)` of `std::vector`: truncation, or padding with
default-constructed elements. -/
def resize {P : Type} [Inhabited P] (l : List P) (n : Nat) : List P :=
  l.take n ++ List.replicate (n - l.length) default

/-- Lines 114-124. -/
def GetNystromPoints {P : Type} [Inhabited P] (domain : Domain P) (numberOfPoints : Nat)
    (p : Equiv.Perm (Fin domain.GetDomainPoints.length)) : List P :=
  let numberOfPoints := min numberOfPoints domain.GetNumberOfPoints
  let shuffledDomainPoints := domain.GetDomainPoints
  let shuffledDomainPoints := random_shuffle shuffledDomainPoints p
  let shuffledDomainPoints := resize shuffledDomainPoints numberOfPoints
  shuffledDomainPoints

/-! ## The approximation object -/

/-- The data members of `Nystrom<T>`. -/
structure Nystrom (P α : Type) where
  m_representer : Representer P
  m_nystromMatrix : MatrixType α
  m_eigenvalues : VectorType α
  m_nystromPoints : List P
  m_kernel : MatrixValuedKernel P α
  m_numEigenfunctions : Nat

/-- Lines 81-106: the constructor `Nystrom::Nystrom`. The arguments `svd`, `sqrt` and `p`
are the solver, `std::sqrt` and the permutation drawn by the shuffle. -/
def Nystrom.construct {P α : Type} [Field α] [Inhabited P]
    (svd : MatrixType α → Nat → RandSVD α) (sqrt : α → α)
    (representer : Representer P) (kernel : MatrixValuedKernel P α)
    (numEigenfunctions numberOfPointsForApproximation : Nat)
    (p : Equiv.Perm (Fin representer.GetDomain.GetDomainPoints.length)) :
    Except EigenError (Nystrom P α) := do
  let domain := representer.GetDomain
  let m_nystromPoints := GetNystromPoints domain numberOfPointsForApproximation p
  let numDomainPoints := domain.GetNumberOfPoints
  let UD := ComputeKernelMatrixDecomposition svd kernel m_nystromPoints numEigenfunctions
  let U := UD.1
  let D := UD.2
  let normFactor : α := (m_nystromPoints.length : α) / (numDomainPoints : α)
  let Uk ← U.leftCols numEigenfunctions
  let Dk ← D.topRows numEigenfunctions
  let UDinv ← Uk.mulDiagonal Dk.cwiseInverse
  let m_nystromMatrix := UDinv.smul (sqrt normFactor)
  let Dk ← D.topRows numEigenfunctions
  let m_eigenvalues := Dk.smul (1 / normFactor)
  pure { m_representer := representer
         m_nystromMatrix := m_nystromMatrix
         m_eigenvalues := m_eigenvalues
         m_nystromPoints := m_nystromPoints
         m_kernel := kernel
         m_numEigenfunctions := numEigenfunctions }

/-- Lines 73-77. -/
def Nystrom.GetEigenvalues {P α : Type} (self : Nystrom P α) : VectorType α :=
  self.m_eigenvalues

/-- Lines 44-67. -/
def Nystrom.ComputeEigenfunctionsAtPoint {P α : Type} [Semiring α] [Inhabited P]
    (self : Nystrom P α) (pt : P) : Except EigenError (MatrixType α) := do
  let kernelDim := self.m_kernel.GetDimension
  let kxi ← forLoopE 0 self.m_nystromPoints.length (fun j kxi =>
      kxi.setBlock 0 (j * kernelDim) kernelDim kernelDim
        (self.m_kernel.call pt (self.m_nystromPoints.getD j default)))
    (MatrixType.Zero kernelDim (self.m_nystromPoints.length * kernelDim))
  forLoopE 0 self.m_numEigenfunctions (fun j resMat => do
      let c ← self.m_nystromMatrix.col j
      let x ← kxi.mul c
      resMat.setBlock 0 j kernelDim 1 x)
    (MatrixType.Zero kernelDim self.m_numEigenfunctions)

/-! ## The evaluation as the spec states it -/

/-- The spec's `K_point`: the `d × (M·d)` horizontal concatenation of the blocks
`k(pt, xs[0]), ..., k(pt, xs[M-1])`. -/
def K_point {P α : Type} [Inhabited P] (kernel : MatrixValuedKernel P α) (xs : List P)
    (pt : P) : MatrixType α :=
  ⟨kernel.GetDimension, xs.length * kernel.GetDimension, fun a l =>
    (kernel.call pt (xs.getD (l / kernel.GetDimension) default)).coeff a
      (l % kernel.GetDimension)⟩

/-- The spec's `Evaluate`: the single product `K_point · extensionMatrix`. -/
def Evaluate_spec {P α : Type} [Semiring α] [Inhabited P] (self : Nystrom P α) (pt : P) :
    MatrixType α :=
  ⟨self.m_kernel.GetDimension, self.m_nystromMatrix.cols, fun a j =>
    ∑ l in Finset.range (self.m_nystromPoints.length * self.m_kernel.GetDimension),
      (K_point self.m_kernel self.m_nystromPoints pt).coeff a l *
        self.m_nystromMatrix.coeff l j⟩

/-- The coefficient `(r, c)` lies in block `(i, j)` of a matrix of `d × d` blocks. -/
def InBlock (d i j r c : Nat) : Prop :=
  ∃ d1, d1 < d ∧ ∃ d2, d2 < d ∧ r = i * d + d1 ∧ c = j * d + d2

instance InBlock.decidable (d i j r c : Nat) : Decidable (InBlock d i j r c) := by
  unfold InBlock
  infer_instance

/-! ## Temporary names (`utils::CreateTmpName` of `Utils.h`) -/

/-- The array `sk_pathChars` of line 186 with its terminating NUL: `sizeof(sk_pathChars)` is
the length of this list. -/
def sk_pathChars : List Char :=
  "0123456789abcdefghiklmnopqrstuvwxyz".toList ++ [Char.ofNat 0]

/-- The upper bound `sizeof(sk_pathChars) - 2` of the distribution `s_randIndex`
(lines 187-188); its lower bound is `0`. -/
def s_randIndex_max : Nat := sk_pathChars.length - 2

/-- Lines 191-197: the loop over the characters of the mask. `draw n` is the `n`-th value
returned by `s_randIndex(rand::RandGen())` and the counter tells how many draws were made
so far; reading outside the array `sk_pathChars` gives no result. -/
def fillMask (draw : Nat → Nat) : List Char → Nat → Option (List Char)
  | [], _ => some []
  | c :: cs, n =>
    if c = '%' then
      match sk_pathChars[draw n]? with
      | some x => (fillMask draw cs (n + 1)).map (fun rest => x :: rest)
      | none => none
    else (fillMask draw cs n).map (fun rest => c :: rest)

/-- Lines 179-200: `CreateTmpName(extension)`, strings being lists of characters. -/
def CreateTmpName (draw : Nat → Nat) (extension : List Char) : Option (List Char) :=
  let mask := "%%%%-%%%%-%%%%-%%%%".toList
  (fillMask draw mask 0).map (fun mask => mask ++ extension)

/-! ## Concrete inputs -/

/-- The scalar identity kernel of the spec's scenario over any point type: `d = 1`,
`k(x, y) = 1` if `x = y` else `0`. -/
def identityKernel (P α : Type) [DecidableEq P] [Zero α] [One α] : MatrixValuedKernel P α :=
  { GetDimension := 1
    call := fun x y => ⟨1, 1, fun _ _ => if x = y then 1 else 0⟩
    call_rows := fun _ _ => rfl
    call_cols := fun _ _ => rfl }

/-- A kernel of dimension 2 on integer points whose blocks are not symmetric:
`k(x, y) = [[1, 2], [3, 4]]` for all points. -/
def asymKernel : MatrixValuedKernel Nat Int :=
  { GetDimension := 2
    call := fun _ _ => ⟨2, 2, fun a b => 2 * (a : Int) + (b : Int) + 1⟩
    call_rows := fun _ _ => rfl
    call_cols := fun _ _ => rfl }

/-- A kernel of dimension 2 that honours `k(x, y) = k(y, x)^T`:
`k(x, y) = [[x*y, x], [y, 1]]`. -/
def symKernel : MatrixValuedKernel Nat Int :=
  { GetDimension := 2
    call := fun x y => ⟨2, 2, fun a b =>
      if a = 0 ∧ b = 0 then (x : Int) * (y : Int)
      else if a = 0 then (x : Int) else if b = 0 then (y : Int) else 1⟩
    call_rows := fun _ _ => rfl
    call_cols := fun _ _ => rfl }

/-- The scalar identity kernel of the spec's scenario: `d = 1`, `k(x, y) = 1` if `x = y`
else `0`. -/
def idKernel : MatrixValuedKernel Nat ℚ :=
  { GetDimension := 1
    call := fun x y => ⟨1, 1, fun _ _ => if x = y then 1 else 0⟩
    call_rows := fun _ _ => rfl
    call_cols := fun _ _ => rfl }

/-- The scalar kernel that vanishes everywhere. -/
def zeroKernel : MatrixValuedKernel Nat ℚ :=
  { GetDimension := 1
    call := fun _ _ => ⟨1, 1, fun _ _ => 0⟩
    call_rows := fun _ _ => rfl
    call_cols := fun _ _ => rfl }

/-- A solver for matrices that are a multiple `v` of the identity: the leading
`min targetRank n` unit vectors and the value `v` for each of them. -/
def diagSolver (v : ℚ) : MatrixType ℚ → Nat → RandSVD ℚ := fun A targetRank =>
  { MatrixU := ⟨A.rows, min targetRank A.rows, fun r c => if r = c then 1 else 0⟩
    SingularValues := ⟨min targetRank A.rows, fun _ => v⟩ }

/-- A square root on the rationals, exact on quotients of perfect squares. -/
def ratSqrt (q : ℚ) : ℚ := (Nat.sqrt q.num.toNat : ℚ) / (Nat.sqrt q.den : ℚ)

/-- The domain of the spec's scenario: 100 scalar points. -/
def scenarioRepresenter : Representer Nat := ⟨⟨List.range 100⟩⟩

/-- A domain of four points. -/
def smallRepresenter : Representer Nat := ⟨⟨[10, 11, 12, 13]⟩⟩

/-- An approximation object with two landmarks, the scalar identity kernel and a
`2 × 2` extension matrix. -/
def exNystrom : Nystrom Nat ℚ :=
  { m_representer := ⟨⟨[10, 11, 12, 13]⟩⟩
    m_nystromMatrix := ⟨2, 2, fun r c => if r = c then 1 / 2 else 0⟩
    m_eigenvalues := ⟨2, fun _ => 2⟩
    m_nystromPoints := [10, 11]
    m_kernel :=
      { GetDimension := 1
        call := fun x y => ⟨1, 1, fun _ _ => if x = y then 1 else 0⟩
        call_rows := fun _ _ => rfl
        call_cols := fun _ _ => rfl }
    m_numEigenfunctions := 2 }

/-! ## Loop lemmas -/

theorem forLoop_ge {σ : Type} (lo hi : Nat) (body : Nat → σ → σ) (s : σ) (h : hi ≤ lo) :
    forLoop lo hi body s = s := by
  unfold forLoop
  rw [Nat.sub_eq_zero_of_le h]
  rfl

theorem forLoop_succ {σ : Type} (lo hi : Nat) (body : Nat → σ → σ) (s : σ) (h : lo ≤ hi) :
    forLoop lo (hi + 1) body s = body hi (forLoop lo hi body s) := by
  unfold forLoop
  have e : hi + 1 - lo = (hi - lo) + 1 := by omega
  rw [e, List.range'_concat, List.foldl_append]
  simp only [List.foldl_cons, List.foldl_nil, Nat.one_mul]
  have e2 : lo + (hi - lo) = hi := by omega
  rw [e2]

/-- A property that holds before a loop and is kept by every iteration holds after it. -/
theorem forLoop_invariant {σ : Type} (Inv : σ → Prop) (lo hi : Nat) (body : Nat → σ → σ)
    (s : σ) (h0 : Inv s)
    (hstep : ∀ i t, lo ≤ i → i < hi → Inv t → Inv (body i t)) :
    Inv (forLoop lo hi body s) := by
  induction hi with
  | zero => rw [forLoop_ge _ _ _ _ (Nat.zero_le _)]; exact h0
  | succ n ih =>
    by_cases hle : lo ≤ n
    · rw [forLoop_succ _ _ _ _ hle]
      exact hstep n _ hle (Nat.lt_succ_self n)
        (ih (fun i t h1 h2 h3 => hstep i t h1 (Nat.lt_succ_of_lt h2) h3))
    · rw [forLoop_ge _ _ _ _ (by omega)]; exact h0

/-- A property that iteration `x` establishes and every later iteration keeps holds
after the loop. -/
theorem forLoop_last {σ : Type} (Q : σ → Prop) (lo hi x : Nat) (body : Nat → σ → σ)
    (s : σ) (hlo : lo ≤ x) (hhi : x < hi)
    (hx : ∀ t, Q (body x t))
    (hstep : ∀ i t, x < i → i < hi → Q t → Q (body i t)) :
    Q (forLoop lo hi body s) := by
  induction hi with
  | zero => omega
  | succ n ih =>
    rw [forLoop_succ _ _ _ _ (by omega)]
    by_cases hxn : x = n
    · subst hxn; exact hx _
    · exact hstep n _ (by omega) (Nat.lt_succ_self n)
        (ih (by omega) (fun i t h1 h2 h3 => hstep i t h1 (Nat.lt_succ_of_lt h2) h3))

/-! ## Shape and symmetry of the kernel matrix -/

theorem kernelMatrixElem_shape {α : Type} (kernelDim i j : Nat) (k_xixj : MatrixType α)
    (d1 d2 : Nat) (K : MatrixType α) :
    (kernelMatrixElem kernelDim i j k_xixj d1 d2 K).rows = K.rows ∧
    (kernelMatrixElem kernelDim i j k_xixj d1 d2 K).cols = K.cols :=
  ⟨rfl, rfl⟩

theorem kernelMatrixElem_symm {α : Type} (kernelDim i j : Nat) (k_xixj : MatrixType α)
    (d1 d2 : Nat) (K : MatrixType α) (hK : ∀ r c, K.coeff r c = K.coeff c r) :
    ∀ r c, (kernelMatrixElem kernelDim i j k_xixj d1 d2 K).coeff r c =
      (kernelMatrixElem kernelDim i j k_xixj d1 d2 K).coeff c r := by
  intro r c
  simp only [kernelMatrixElem, MatrixType.coeffRef]
  by_cases h1 : r = j * kernelDim + d2 ∧ c = i * kernelDim + d1
  · by_cases h2 : c = j * kernelDim + d2 ∧ r = i * kernelDim + d1
    · simp [h1, h2]
    · simp [h1, h2]
  · by_cases h2 : c = j * kernelDim + d2 ∧ r = i * kernelDim + d1
    · simp [h1, h2]
    · have h3 : ¬ (r = i * kernelDim + d1 ∧ c = j * kernelDim + d2) := fun h => h2 ⟨h.2, h.1⟩
      have h4 : ¬ (c = i * kernelDim + d1 ∧ r = j * kernelDim + d2) := fun h => h1 ⟨h.2, h.1⟩
      simp [h1, h2, h3, h4, hK r c]

theorem kernelMatrix_symm_all {P α : Type} [Zero α] [Inhabited P]
    (kernel : MatrixValuedKernel P α) (xs : List P) :
    ∀ r c, (kernelMatrix kernel xs).coeff r c = (kernelMatrix kernel xs).coeff c r := by
  unfold kernelMatrix
  apply forLoop_invariant (fun K : MatrixType α => ∀ r c, K.coeff r c = K.coeff c r)
  · intro r c; rfl
  · intro i K _ _ hK
    unfold kernelMatrixRow
    apply forLoop_invariant (fun K : MatrixType α => ∀ r c, K.coeff r c = K.coeff c r) _ _ _ _ hK
    intro j K _ _ hK
    unfold kernelMatrixBlock
    apply forLoop_invariant (fun K : MatrixType α => ∀ r c, K.coeff r c = K.coeff c r) _ _ _ _ hK
    intro d1 K _ _ hK
    apply forLoop_invariant (fun K : MatrixType α => ∀ r c, K.coeff r c = K.coeff c r) _ _ _ _ hK
    intro d2 K _ _ hK
    exact kernelMatrixElem_symm _ _ _ _ _ _ K hK

/-! ## Content of the kernel matrix -/

theorem index_decomp (d i i2 a a2 : Nat) (ha : a < d) (ha2 : a2 < d)
    (h : i * d + a = i2 * d + a2) : i = i2 ∧ a = a2 := by
  rcases Nat.lt_trichotomy i i2 with hlt | heq | hgt
  · have := Nat.mul_le_mul_right d (Nat.succ_le_of_lt hlt)
    rw [Nat.succ_mul] at this
    omega
  · subst heq; omega
  · have := Nat.mul_le_mul_right d (Nat.succ_le_of_lt hgt)
    rw [Nat.succ_mul] at this
    omega

theorem inBlock_iff (d i j i2 j2 a b : Nat) (ha : a < d) (hb : b < d) :
    InBlock d i2 j2 (i * d + a) (j * d + b) ↔ i2 = i ∧ j2 = j := by
  constructor
  · rintro ⟨d1, h1, d2, h2, hr, hc⟩
    exact ⟨(index_decomp d i i2 a d1 ha h1 hr).1.symm, (index_decomp d j j2 b d2 hb h2 hc).1.symm⟩
  · rintro ⟨rfl, rfl⟩
    exact ⟨a, ha, b, hb, rfl, rfl⟩

theorem kernelMatrixElem_frame {α : Type} (d i j : Nat) (kij : MatrixType α)
    (d1 d2 : Nat) (K : MatrixType α) (r c : Nat)
    (h1 : ¬ (r = i * d + d1 ∧ c = j * d + d2))
    (h2 : ¬ (r = j * d + d2 ∧ c = i * d + d1)) :
    (kernelMatrixElem d i j kij d1 d2 K).coeff r c = K.coeff r c := by
  simp [kernelMatrixElem, MatrixType.coeffRef, h1, h2]

theorem kernelMatrixElem_first {α : Type} (d i j : Nat) (kij : MatrixType α)
    (d1 d2 : Nat) (K : MatrixType α) :
    (kernelMatrixElem d i j kij d1 d2 K).coeff (i * d + d1) (j * d + d2) = kij.coeff d1 d2 := by
  simp only [kernelMatrixElem, MatrixType.coeffRef]
  split <;> simp

theorem kernelMatrixElem_second {α : Type} (d i j : Nat) (kij : MatrixType α)
    (d1 d2 : Nat) (K : MatrixType α) :
    (kernelMatrixElem d i j kij d1 d2 K).coeff (j * d + d2) (i * d + d1) = kij.coeff d1 d2 := by
  simp [kernelMatrixElem, MatrixType.coeffRef]

theorem kernelMatrixBlock_frame {α : Type} (d i j : Nat) (kij : MatrixType α)
    (K : MatrixType α) (r c : Nat) (h1 : ¬ InBlock d i j r c) (h2 : ¬ InBlock d j i r c) :
    (kernelMatrixBlock d i j kij K).coeff r c = K.coeff r c := by
  unfold kernelMatrixBlock
  apply forLoop_invariant (fun M : MatrixType α => M.coeff r c = K.coeff r c) _ _ _ _ rfl
  intro d1 M _ hd1 hM
  apply forLoop_invariant (fun M : MatrixType α => M.coeff r c = K.coeff r c) _ _ _ _ hM
  intro d2 M _ hd2 hM
  rw [kernelMatrixElem_frame _ _ _ _ _ _ _ _ _ _ _, hM]
  · exact fun h => h1 ⟨d1, hd1, d2, hd2, h.1, h.2⟩
  · exact fun h => h2 ⟨d2, hd2, d1, hd1, h.1, h.2⟩

theorem kernelMatrixRow_frame {P α : Type} [Inhabited P] (kernel : MatrixValuedKernel P α)
    (xs : List P) (i : Nat) (K : MatrixType α) (r c : Nat)
    (h : ∀ j, i ≤ j → j < xs.length →
      ¬ InBlock kernel.GetDimension i j r c ∧ ¬ InBlock kernel.GetDimension j i r c) :
    (kernelMatrixRow kernel xs i K).coeff r c = K.coeff r c := by
  unfold kernelMatrixRow
  apply forLoop_invariant (fun M : MatrixType α => M.coeff r c = K.coeff r c) _ _ _ _ rfl
  intro j M hj1 hj2 hM
  simp only
  rw [kernelMatrixBlock_frame _ _ _ _ _ _ _ (h j hj1 hj2).1 (h j hj1 hj2).2, hM]

/-- Off the diagonal, block `(i, j)` receives the kernel block and nothing overwrites it. -/
theorem kernelMatrixBlock_upper {α : Type} (d i j : Nat) (kij : MatrixType α)
    (K : MatrixType α) (a b : Nat) (hij : i ≠ j) (ha : a < d) (hb : b < d) :
    (kernelMatrixBlock d i j kij K).coeff (i * d + a) (j * d + b) = kij.coeff a b := by
  have hne : ∀ x y, x < d → y < d → i * d + x ≠ j * d + y :=
    fun x y hx hy h => hij (index_decomp d i j x y hx hy h).1
  unfold kernelMatrixBlock
  apply forLoop_last (fun M : MatrixType α => M.coeff (i * d + a) (j * d + b) = kij.coeff a b)
    0 d a _ _ (Nat.zero_le _) ha
  · intro M
    apply forLoop_last
      (fun M : MatrixType α => M.coeff (i * d + a) (j * d + b) = kij.coeff a b)
      0 d b _ _ (Nat.zero_le _) hb
    · intro M
      exact kernelMatrixElem_first d i j kij a b M
    · intro d2 M h1 h2 hM
      rw [kernelMatrixElem_frame, hM]
      · intro h; omega
      · intro h; exact hne a d2 ha h2 h.1
  · intro d1 M h1 h2 hM
    apply forLoop_invariant
      (fun M : MatrixType α => M.coeff (i * d + a) (j * d + b) = kij.coeff a b) _ _ _ _ hM
    intro d2 M _ h3 hM
    rw [kernelMatrixElem_frame, hM]
    · intro h; omega
    · intro h; exact hne a d2 ha h3 h.1

/-- On the diagonal, the later of the two writes to a coefficient wins. -/
theorem kernelMatrixBlock_diag {α : Type} (d i : Nat) (kii : MatrixType α)
    (K : MatrixType α) (a b : Nat) (ha : a < d) (hb : b < d) :
    (kernelMatrixBlock d i i kii K).coeff (i * d + a) (i * d + b) =
      kii.coeff (max a b) (min a b) := by
  unfold kernelMatrixBlock
  apply forLoop_last
    (fun M : MatrixType α => M.coeff (i * d + a) (i * d + b) = kii.coeff (max a b) (min a b))
    0 d (max a b) _ _ (Nat.zero_le _) (max_lt ha hb)
  · intro M
    apply forLoop_last
      (fun M : MatrixType α => M.coeff (i * d + a) (i * d + b) = kii.coeff (max a b) (min a b))
      0 d (min a b) _ _ (Nat.zero_le _) (lt_of_le_of_lt (min_le_left a b) ha)
    · intro M
      rcases Nat.le_total a b with hab | hab
      · rw [max_eq_right hab, min_eq_left hab]
        exact kernelMatrixElem_second d i i kii b a M
      · rw [max_eq_left hab, min_eq_right hab]
        exact kernelMatrixElem_first d i i kii a b M
    · intro d2 M h1 h2 hM
      rw [kernelMatrixElem_frame, hM]
      · intro h
        have := Nat.le_max_left a b
        have := Nat.le_max_right a b
        have := Nat.min_le_left a b
        have := Nat.min_le_right a b
        omega
      · intro h
        have := Nat.le_max_left a b
        have := Nat.le_max_right a b
        have := Nat.min_le_left a b
        have := Nat.min_le_right a b
        omega
  · intro d1 M h1 h2 hM
    apply forLoop_invariant
      (fun M : MatrixType α => M.coeff (i * d + a) (i * d + b) = kii.coeff (max a b) (min a b))
      _ _ _ _ hM
    intro d2 M _ h3 hM
    have := Nat.le_max_left a b
    have := Nat.le_max_right a b
    rw [kernelMatrixElem_frame, hM]
    · intro h; omega
    · intro h; omega

theorem kernelMatrix_shape {P α : Type} [Zero α] [Inhabited P]
    (kernel : MatrixValuedKernel P α) (xs : List P) :
    (kernelMatrix kernel xs).rows = xs.length * kernel.GetDimension ∧
    (kernelMatrix kernel xs).cols = xs.length * kernel.GetDimension := by
  unfold kernelMatrix
  apply forLoop_invariant (fun K : MatrixType α =>
    K.rows = xs.length * kernel.GetDimension ∧ K.cols = xs.length * kernel.GetDimension)
  · exact ⟨rfl, rfl⟩
  · intro i K _ _ hK
    unfold kernelMatrixRow
    apply forLoop_invariant (fun K : MatrixType α =>
      K.rows = xs.length * kernel.GetDimension ∧ K.cols = xs.length * kernel.GetDimension)
      _ _ _ _ hK
    intro j K _ _ hK
    unfold kernelMatrixBlock
    apply forLoop_invariant (fun K : MatrixType α =>
      K.rows = xs.length * kernel.GetDimension ∧ K.cols = xs.length * kernel.GetDimension)
      _ _ _ _ hK
    intro d1 K _ _ hK
    apply forLoop_invariant (fun K : MatrixType α =>
      K.rows = xs.length * kernel.GetDimension ∧ K.cols = xs.length * kernel.GetDimension)
      _ _ _ _ hK
    intro d2 K _ _ hK
    exact hK

/-- The coefficient of the assembled matrix in a block `(i, j)` with `i < j`. -/
theorem kernelMatrix_upper {P α : Type} [Zero α] [Inhabited P]
    (kernel : MatrixValuedKernel P α) (xs : List P) (i j a b : Nat)
    (hij : i < j) (hj : j < xs.length)
    (ha : a < kernel.GetDimension) (hb : b < kernel.GetDimension) :
    (kernelMatrix kernel xs).coeff (i * kernel.GetDimension + a) (j * kernel.GetDimension + b) =
      (kernel.call (xs.getD i default) (xs.getD j default)).coeff a b := by
  unfold kernelMatrix
  apply forLoop_last (fun K : MatrixType α =>
    K.coeff (i * kernel.GetDimension + a) (j * kernel.GetDimension + b) =
      (kernel.call (xs.getD i default) (xs.getD j default)).coeff a b)
    0 xs.length i _ _ (Nat.zero_le _) (by omega)
  · intro K
    unfold kernelMatrixRow
    apply forLoop_last (fun K : MatrixType α =>
      K.coeff (i * kernel.GetDimension + a) (j * kernel.GetDimension + b) =
        (kernel.call (xs.getD i default) (xs.getD j default)).coeff a b)
      i xs.length j _ _ (by omega) hj
    · intro K
      exact kernelMatrixBlock_upper _ i j _ K a b (by omega) ha hb
    · intro j2 K h1 h2 hK
      simp only
      rw [kernelMatrixBlock_frame, hK]
      · rw [inBlock_iff _ _ _ _ _ _ _ ha hb]; omega
      · rw [inBlock_iff _ _ _ _ _ _ _ ha hb]; omega
  · intro i2 K h1 h2 hK
    rw [kernelMatrixRow_frame, hK]
    intro j2 h3 h4
    rw [inBlock_iff _ _ _ _ _ _ _ ha hb, inBlock_iff _ _ _ _ _ _ _ ha hb]
    omega

/-- The coefficient of the assembled matrix in a diagonal block. -/
theorem kernelMatrix_diag {P α : Type} [Zero α] [Inhabited P]
    (kernel : MatrixValuedKernel P α) (xs : List P) (i a b : Nat)
    (hi : i < xs.length)
    (ha : a < kernel.GetDimension) (hb : b < kernel.GetDimension) :
    (kernelMatrix kernel xs).coeff (i * kernel.GetDimension + a) (i * kernel.GetDimension + b) =
      (kernel.call (xs.getD i default) (xs.getD i default)).coeff (max a b) (min a b) := by
  unfold kernelMatrix
  apply forLoop_last (fun K : MatrixType α =>
    K.coeff (i * kernel.GetDimension + a) (i * kernel.GetDimension + b) =
      (kernel.call (xs.getD i default) (xs.getD i default)).coeff (max a b) (min a b))
    0 xs.length i _ _ (Nat.zero_le _) hi
  · intro K
    unfold kernelMatrixRow
    apply forLoop_last (fun K : MatrixType α =>
      K.coeff (i * kernel.GetDimension + a) (i * kernel.GetDimension + b) =
        (kernel.call (xs.getD i default) (xs.getD i default)).coeff (max a b) (min a b))
      i xs.length i _ _ (Nat.le_refl _) hi
    · intro K
      exact kernelMatrixBlock_diag _ i _ K a b ha hb
    · intro j2 K h1 h2 hK
      simp only
      rw [kernelMatrixBlock_frame, hK]
      · rw [inBlock_iff _ _ _ _ _ _ _ ha hb]; omega
      · rw [inBlock_iff _ _ _ _ _ _ _ ha hb]; omega
  · intro i2 K h1 h2 hK
    rw [kernelMatrixRow_frame, hK]
    intro j2 h3 h4
    rw [inBlock_iff _ _ _ _ _ _ _ ha hb, inBlock_iff _ _ _ _ _ _ _ ha hb]
    omega

/-! ## Landmark sampling -/

theorem random_shuffle_length {P : Type} (l : List P) (p : Equiv.Perm (Fin l.length)) :
    (random_shuffle l p).length = l.length := by
  simp [random_shuffle]

theorem random_shuffle_eq_map {P : Type} (l : List P) (p : Equiv.Perm (Fin l.length)) :
    random_shuffle l p = (List.ofFn (fun i => p i)).map (fun i => l.get i) := by
  simp [random_shuffle, List.map_ofFn, Function.comp_def]

theorem random_shuffle_perm {P : Type} (l : List P) (p : Equiv.Perm (Fin l.length)) :
    (random_shuffle l p).Perm l := by
  have h := Equiv.Perm.ofFn_comp_perm p (fun i => l.get i)
  rw [List.ofFn_get] at h
  exact h

theorem resize_of_le {P : Type} [Inhabited P] (l : List P) (n : Nat) (h : n ≤ l.length) :
    resize l n = l.take n := by
  simp [resize, Nat.sub_eq_zero_of_le h]

/-! ## The constructor -/

/-- When both slices are in range the constructor succeeds, and its result is explicit. -/
theorem construct_ok {P α : Type} [Field α] [Inhabited P]
    (svd : MatrixType α → Nat → RandSVD α) (sqrt : α → α)
    (representer : Representer P) (kernel : MatrixValuedKernel P α)
    (k r : Nat) (p : Equiv.Perm (Fin representer.GetDomain.GetDomainPoints.length))
    (hU : k ≤ (ComputeKernelMatrixDecomposition svd kernel
      (GetNystromPoints representer.GetDomain r p) k).1.cols)
    (hD : k ≤ (ComputeKernelMatrixDecomposition svd kernel
      (GetNystromPoints representer.GetDomain r p) k).2.rows) :
    Nystrom.construct svd sqrt representer kernel k r p =
      .ok { m_representer := representer
            m_nystromMatrix :=
              ⟨(ComputeKernelMatrixDecomposition svd kernel
                  (GetNystromPoints representer.GetDomain r p) k).1.rows, k,
                fun x y =>
                  sqrt (((GetNystromPoints representer.GetDomain r p).length : α) /
                      (representer.GetDomain.GetNumberOfPoints : α)) *
                    ((ComputeKernelMatrixDecomposition svd kernel
                        (GetNystromPoints representer.GetDomain r p) k).1.coeff x y *
                      (1 / (ComputeKernelMatrixDecomposition svd kernel
                        (GetNystromPoints representer.GetDomain r p) k).2.coeff y))⟩
            m_eigenvalues :=
              ⟨k, fun y =>
                1 / (((GetNystromPoints representer.GetDomain r p).length : α) /
                      (representer.GetDomain.GetNumberOfPoints : α)) *
                  (ComputeKernelMatrixDecomposition svd kernel
                    (GetNystromPoints representer.GetDomain r p) k).2.coeff y⟩
            m_nystromPoints := GetNystromPoints representer.GetDomain r p
            m_kernel := kernel
            m_numEigenfunctions := k } := by
  simp only [Nystrom.construct, MatrixType.leftCols, VectorType.topRows, if_pos hU, if_pos hD,
    MatrixType.mulDiagonal, VectorType.cwiseInverse, MatrixType.smul, VectorType.smul,
    bind, Except.bind, pure, Except.pure, if_true]

theorem GetNystromPoints_length {P : Type} [Inhabited P] (domain : Domain P) (r : Nat)
    (p : Equiv.Perm (Fin domain.GetDomainPoints.length)) :
    (GetNystromPoints domain r p).length = min r domain.GetNumberOfPoints := by
  simp only [GetNystromPoints]
  rw [resize_of_le, List.length_take, random_shuffle_length]
  · exact Nat.min_eq_left (Nat.min_le_right _ _)
  · rw [random_shuffle_length]; exact Nat.min_le_right _ _

/-! ## Loops whose body may fail -/

theorem forLoopE_ge {σ ε : Type} (lo hi : Nat) (body : Nat → σ → Except ε σ) (s : σ)
    (h : hi ≤ lo) : forLoopE lo hi body s = .ok s := by
  unfold forLoopE
  rw [Nat.sub_eq_zero_of_le h]
  rfl

theorem forLoopE_succ {σ ε : Type} (lo hi : Nat) (body : Nat → σ → Except ε σ) (s : σ)
    (h : lo ≤ hi) :
    forLoopE lo (hi + 1) body s = (forLoopE lo hi body s >>= fun t => body hi t) := by
  unfold forLoopE
  have e : hi + 1 - lo = (hi - lo) + 1 := by omega
  rw [e, List.range'_concat, List.foldlM_append]
  have e2 : lo + 1 * (hi - lo) = hi := by omega
  rw [e2]
  congr 1
  funext t
  simp [List.foldlM_cons, List.foldlM_nil]

/-- A failing loop whose iterations all succeed, under an invariant, is the pure loop of
their results. -/
theorem forLoopE_ok {σ ε : Type} (Inv : σ → Prop) (lo hi : Nat)
    (body : Nat → σ → Except ε σ) (g : Nat → σ → σ) (s : σ) (h0 : Inv s)
    (hstep : ∀ i t, lo ≤ i → i < hi → Inv t → body i t = .ok (g i t) ∧ Inv (g i t)) :
    forLoopE lo hi body s = .ok (forLoop lo hi g s) ∧ Inv (forLoop lo hi g s) := by
  induction hi with
  | zero =>
    rw [forLoopE_ge _ _ _ _ (Nat.zero_le _), forLoop_ge _ _ _ _ (Nat.zero_le _)]
    exact ⟨rfl, h0⟩
  | succ n ih =>
    by_cases hle : lo ≤ n
    · have ih2 := ih (fun i t h1 h2 h3 => hstep i t h1 (Nat.lt_succ_of_lt h2) h3)
      rw [forLoopE_succ _ _ _ _ hle, forLoop_succ _ _ _ _ hle, ih2.1]
      have := hstep n _ hle (Nat.lt_succ_self n) ih2.2
      exact ⟨this.1, this.2⟩
    · rw [forLoopE_ge _ _ _ _ (by omega), forLoop_ge _ _ _ _ (by omega)]
      exact ⟨rfl, h0⟩

theorem sum_range_blocks {α : Type} [AddCommMonoid α] (f : Nat → α) (M d : Nat) :
    ∑ l in Finset.range (M * d), f l =
      ∑ i in Finset.range M, ∑ b in Finset.range d, f (i * d + b) := by
  induction M with
  | zero => simp
  | succ n ih =>
    rw [Nat.succ_mul, Finset.sum_range_add, ih, Finset.sum_range_succ]

/-! ## Evaluation of the eigenfunctions -/

/-- The row block `kxi` after the first loop of `ComputeEigenfunctionsAtPoint`. -/
theorem kxi_loop {P α : Type} [Semiring α] [Inhabited P]
    (kernel : MatrixValuedKernel P α) (xs : List P) (pt : P) :
    ∃ kxi : MatrixType α,
      forLoopE 0 xs.length (fun j kxi =>
        kxi.setBlock 0 (j * kernel.GetDimension) kernel.GetDimension kernel.GetDimension
          (kernel.call pt (xs.getD j default)))
        (MatrixType.Zero kernel.GetDimension (xs.length * kernel.GetDimension)) = .ok kxi ∧
      kxi.rows = kernel.GetDimension ∧ kxi.cols = xs.length * kernel.GetDimension ∧
      ∀ i a b, i < xs.length → a < kernel.GetDimension → b < kernel.GetDimension →
        kxi.coeff a (i * kernel.GetDimension + b) =
          (kernel.call pt (xs.getD i default)).coeff a b := by
  have h := forLoopE_ok
    (fun t : MatrixType α =>
      t.rows = kernel.GetDimension ∧ t.cols = xs.length * kernel.GetDimension)
    0 xs.length
    (fun j (kxi : MatrixType α) =>
      kxi.setBlock 0 (j * kernel.GetDimension) kernel.GetDimension kernel.GetDimension
        (kernel.call pt (xs.getD j default)))
    (fun j (kxi : MatrixType α) =>
      kxi.writeBlock 0 (j * kernel.GetDimension) kernel.GetDimension kernel.GetDimension
        (kernel.call pt (xs.getD j default)))
    (MatrixType.Zero kernel.GetDimension (xs.length * kernel.GetDimension))
    ⟨rfl, rfl⟩
    (by
      intro j t _ hj ht
      have hle : j * kernel.GetDimension + kernel.GetDimension ≤
          xs.length * kernel.GetDimension := by
        have := Nat.mul_le_mul_right kernel.GetDimension (Nat.succ_le_of_lt hj)
        rw [Nat.succ_mul] at this
        exact this
      refine ⟨?_, ht⟩
      simp only [MatrixType.setBlock]
      rw [if_pos ⟨by rw [ht.1]; omega, by rw [ht.2]; exact hle⟩,
        if_pos ⟨kernel.call_rows _ _, kernel.call_cols _ _⟩])
  refine ⟨_, h.1, h.2.1, h.2.2, ?_⟩
  intro i a b hi ha hb
  apply forLoop_last (fun t : MatrixType α =>
    t.coeff a (i * kernel.GetDimension + b) = (kernel.call pt (xs.getD i default)).coeff a b)
    0 xs.length i _ _ (Nat.zero_le _) hi
  · intro t
    simp only [MatrixType.writeBlock]
    rw [if_pos ⟨Nat.zero_le _, by omega, by omega, by omega⟩]
    simp
  · intro j t hij _ ht
    simp only [MatrixType.writeBlock]
    have := Nat.mul_le_mul_right kernel.GetDimension (Nat.succ_le_of_lt hij)
    rw [Nat.succ_mul] at this
    rw [if_neg (by omega)]
    exact ht

/-- The result of the second loop of `ComputeEigenfunctionsAtPoint`. -/
theorem resMat_loop {α : Type} [Semiring α] (kxi E : MatrixType α) (d k : Nat)
    (hk1 : kxi.rows = d) (hk2 : kxi.cols = E.rows) (hE : E.cols = k) :
    ∃ R : MatrixType α,
      forLoopE 0 k (fun j resMat => do
          let c ← E.col j
          let x ← kxi.mul c
          resMat.setBlock 0 j d 1 x)
        (MatrixType.Zero d k) = .ok R ∧
      R.rows = d ∧ R.cols = k ∧
      ∀ a j, a < d → j < k →
        R.coeff a j = ∑ l in Finset.range kxi.cols, kxi.coeff a l * E.coeff l j := by
  have h := forLoopE_ok
    (fun t : MatrixType α => t.rows = d ∧ t.cols = k)
    0 k
    (fun j (resMat : MatrixType α) => do
          let c ← E.col j
          let x ← kxi.mul c
          resMat.setBlock 0 j d 1 x)
    (fun j (resMat : MatrixType α) =>
      resMat.writeBlock 0 j d 1
        ⟨kxi.rows, 1, fun r _ => ∑ l in Finset.range kxi.cols, kxi.coeff r l * E.coeff l j⟩)
    (MatrixType.Zero d k)
    ⟨rfl, rfl⟩
    (by
      intro j t _ hj ht
      refine ⟨?_, ht⟩
      simp only [MatrixType.col, MatrixType.mul, MatrixType.setBlock, bind, Except.bind]
      rw [if_pos (by omega)]
      simp only []
      rw [if_pos hk2]
      simp only []
      rw [if_pos ⟨by rw [ht.1]; omega, by rw [ht.2]; omega⟩]
      simp [hk1])
  refine ⟨_, h.1, h.2.1, h.2.2, ?_⟩
  intro a j ha hj
  apply forLoop_last (fun t : MatrixType α =>
    t.coeff a j = ∑ l in Finset.range kxi.cols, kxi.coeff a l * E.coeff l j)
    0 k j _ _ (Nat.zero_le _) hj
  · intro t
    simp only [MatrixType.writeBlock]
    rw [if_pos ⟨Nat.zero_le _, by omega, Nat.le_refl _, by omega⟩]
    simp
  · intro j2 t hjj _ ht
    simp only [MatrixType.writeBlock]
    rw [if_neg (by omega)]
    exact ht

/-- The positive factor `1 / normFactor`. -/
theorem inv_normFactor_pos {α : Type} [LinearOrderedField α] (M N : Nat) (hM : 1 ≤ M)
    (hN : 1 ≤ N) : (0 : α) < 1 / ((M : α) / (N : α)) := by
  have h1 : (0 : α) < (M : α) := Nat.cast_pos.mpr hM
  have h2 : (0 : α) < (N : α) := Nat.cast_pos.mpr hN
  exact one_div_pos.mpr (div_pos h1 h2)

/-! ## Temporary names -/

/-- Every index in the range of the distribution reads a character of the alphabet, never
the terminating NUL. -/
theorem sk_pathChars_index (i : Nat) (h : i ≤ s_randIndex_max) :
    i < "0123456789abcdefghiklmnopqrstuvwxyz".toList.length ∧
    ∃ c, sk_pathChars[i]? = some c ∧ c ∈ "0123456789abcdefghiklmnopqrstuvwxyz".toList ∧
      c ≠ Char.ofNat 0 := by
  have hmax : s_randIndex_max = 34 := by decide
  have hlen : "0123456789abcdefghiklmnopqrstuvwxyz".toList.length = 35 := by decide
  have hi : i < "0123456789abcdefghiklmnopqrstuvwxyz".toList.length := by
    rw [hlen]; omega
  refine ⟨hi, "0123456789abcdefghiklmnopqrstuvwxyz".toList[i], ?_, List.getElem_mem _, ?_⟩
  · unfold sk_pathChars
    rw [List.getElem?_append_left hi, List.getElem?_eq_getElem hi]
  · intro h0
    have hmem : Char.ofNat 0 ∈ "0123456789abcdefghiklmnopqrstuvwxyz".toList := by
      rw [← h0]; exact List.getElem_mem _
    revert hmem
    decide


/-- The loop over a mask: when all draws it makes lie in the range of the distribution, it
returns a string of the length of the mask that keeps every character other than `%` and
puts a character of the alphabet in place of every `%`. -/
theorem fillMask_spec (draw : Nat → Nat) (mask : List Char) :
    ∀ n, (∀ m, n ≤ m → m < n + mask.count '%' → draw m ≤ s_randIndex_max) →
    ∃ s : List Char, fillMask draw mask n = some s ∧ s.length = mask.length ∧
      ∀ (i : Nat) (c : Char), mask[i]? = some c →
        (c ≠ '%' → s[i]? = some c) ∧
        (c = '%' → ∃ x, s[i]? = some x ∧
          x ∈ "0123456789abcdefghiklmnopqrstuvwxyz".toList) := by
  induction mask with
  | nil =>
    intro n _
    exact ⟨[], rfl, rfl, fun i c h => by simp at h⟩
  | cons c0 cs ih =>
    intro n hdraw
    by_cases hc : c0 = '%'
    · obtain ⟨_, x, hx, hxmem, _⟩ := sk_pathChars_index (draw n)
        (hdraw n (Nat.le_refl n) (by rw [hc]; simp))
      obtain ⟨rest, hrest, hlen, hall⟩ := ih (n + 1) (fun m h1 h2 =>
        hdraw m (by omega) (by rw [hc, List.count_cons_self]; omega))
      refine ⟨x :: rest, ?_, by simp [hlen], ?_⟩
      · simp only [fillMask, if_pos hc, hx, hrest, Option.map_some']
      · intro i c hi
        cases i with
        | zero =>
          simp only [List.getElem?_cons_zero, Option.some.injEq] at hi
          subst hi
          exact ⟨fun h => absurd hc h, fun _ => ⟨x, by simp, hxmem⟩⟩
        | succ k =>
          simp only [List.getElem?_cons_succ] at hi ⊢
          exact hall k c hi
    · obtain ⟨rest, hrest, hlen, hall⟩ := ih n (fun m h1 h2 =>
        hdraw m h1 (by rw [List.count_cons_of_ne (fun h => hc h.symm)]; exact h2))
      refine ⟨c0 :: rest, ?_, by simp [hlen], ?_⟩
      · simp only [fillMask, if_neg hc, hrest, Option.map_some']
      · intro i c hi
        cases i with
        | zero =>
          simp only [List.getElem?_cons_zero, Option.some.injEq] at hi
          subst hi
          exact ⟨fun _ => by simp, fun h => absurd h hc⟩
        | succ k =>
          simp only [List.getElem?_cons_succ] at hi ⊢
          exact hall k c hi

/-! ## The kernel matrix of a symmetric kernel and of the identity kernel -/

/-- Under the symmetry contract of the kernel every block of the assembled matrix is the
kernel block of its pair of landmarks. -/
theorem kernelMatrix_entry_symm {P α : Type} [Zero α] [Inhabited P]
    (kernel : MatrixValuedKernel P α) (xs : List P)
    (hsym : ∀ x y a b, a < kernel.GetDimension → b < kernel.GetDimension →
      (kernel.call x y).coeff a b = (kernel.call y x).coeff b a)
    (i j a b : Nat) (hi : i < xs.length) (hj : j < xs.length)
    (ha : a < kernel.GetDimension) (hb : b < kernel.GetDimension) :
    (kernelMatrix kernel xs).coeff (i * kernel.GetDimension + a) (j * kernel.GetDimension + b) =
      (kernel.call (xs.getD i default) (xs.getD j default)).coeff a b := by
  rcases Nat.lt_trichotomy i j with hlt | heq | hgt
  · exact kernelMatrix_upper kernel xs i j a b hlt hj ha hb
  · subst heq
    rw [kernelMatrix_diag kernel xs i a b hi ha hb]
    rcases Nat.le_total a b with hab | hab
    · rw [max_eq_right hab, min_eq_left hab]
      exact (hsym _ _ a b ha hb).symm
    · rw [max_eq_left hab, min_eq_right hab]
  · rw [kernelMatrix_symm_all kernel xs, kernelMatrix_upper kernel xs j i b a hgt hi hb ha]
    exact (hsym _ _ a b ha hb).symm

theorem identityKernel_symm (P α : Type) [DecidableEq P] [Zero α] [One α] (x y : P)
    (a b : Nat) :
    ((identityKernel P α).call x y).coeff a b = ((identityKernel P α).call y x).coeff b a := by
  simp only [identityKernel]
  by_cases h : x = y
  · rw [if_pos h, if_pos h.symm]
  · rw [if_neg h, if_neg (fun h2 => h h2.symm)]

theorem GetNystromPoints_nodup {P : Type} [Inhabited P] (domain : Domain P) (r : Nat)
    (p : Equiv.Perm (Fin domain.GetDomainPoints.length))
    (h : domain.GetDomainPoints.Nodup) : (GetNystromPoints domain r p).Nodup := by
  have hle : min r domain.GetNumberOfPoints ≤
      (random_shuffle domain.GetDomainPoints p).length := by
    rw [random_shuffle_length]; exact Nat.min_le_right _ _
  simp only [GetNystromPoints]
  rw [resize_of_le _ _ hle]
  exact ((random_shuffle_perm _ p).nodup_iff.mpr h).sublist (List.take_sublist _ _)

/-- Over pairwise distinct landmarks the identity kernel gives the identity matrix. -/
theorem kernelMatrix_identity {P α : Type} [DecidableEq P] [Zero α] [One α] [Inhabited P]
    (xs : List P) (hxs : xs.Nodup) (i j : Nat) (hi : i < xs.length) (hj : j < xs.length) :
    (kernelMatrix (identityKernel P α) xs).coeff i j = if i = j then 1 else 0 := by
  have h := kernelMatrix_entry_symm (identityKernel P α) xs
    (fun x y a b _ _ => identityKernel_symm P α x y a b) i j 0 0 hi hj
    (Nat.zero_lt_one) (Nat.zero_lt_one)
  have hd : (identityKernel P α).GetDimension = 1 := rfl
  rw [hd, Nat.mul_one, Nat.mul_one, Nat.add_zero, Nat.add_zero] at h
  rw [h, List.getD_eq_getElem xs default hi, List.getD_eq_getElem xs default hj]
  simp only [identityKernel]
  by_cases hij : i = j
  · subst hij; simp
  · rw [if_neg hij, if_neg]
    intro heq
    exact hij ((List.Nodup.getElem_inj_iff hxs).mp heq)

/-- The evaluation succeeds for an extension matrix of the right shape, and its entries
are the double sum over landmarks and block columns. -/
theorem evaluate_sum {P α : Type} [Semiring α] [Inhabited P]
    (self : Nystrom P α) (pt : P)
    (hrows : self.m_nystromMatrix.rows =
      self.m_nystromPoints.length * self.m_kernel.GetDimension)
    (hcols : self.m_nystromMatrix.cols = self.m_numEigenfunctions) :
    ∃ R : MatrixType α, self.ComputeEigenfunctionsAtPoint pt = .ok R ∧
      R.rows = self.m_kernel.GetDimension ∧ R.cols = self.m_numEigenfunctions ∧
      ∀ a j, a < self.m_kernel.GetDimension → j < self.m_numEigenfunctions →
        R.coeff a j =
          ∑ i in Finset.range self.m_nystromPoints.length,
            ∑ b in Finset.range self.m_kernel.GetDimension,
              (self.m_kernel.call pt (self.m_nystromPoints.getD i default)).coeff a b *
                self.m_nystromMatrix.coeff (i * self.m_kernel.GetDimension + b) j := by
  obtain ⟨kxi, hk, hkr, hkc, hkv⟩ := kxi_loop self.m_kernel self.m_nystromPoints pt
  obtain ⟨R, hR, hRr, hRc, hRv⟩ := resMat_loop kxi self.m_nystromMatrix
    self.m_kernel.GetDimension self.m_numEigenfunctions hkr (by rw [hkc, hrows]) hcols
  refine ⟨R, ?_, hRr, hRc, ?_⟩
  · simp only [Nystrom.ComputeEigenfunctionsAtPoint, hk, bind, Except.bind]
    exact hR
  · intro a j ha hj
    rw [hRv a j ha hj, hkc, sum_range_blocks]
    apply Finset.sum_congr rfl
    intro i hi
    apply Finset.sum_congr rfl
    intro b hb
    rw [hkv i a b (Finset.mem_range.mp hi) ha (Finset.mem_range.mp hb)]


/-- The members of the object that a successful construction stores. -/
theorem construct_ok_fields {P α : Type} [Field α] [Inhabited P]
    (svd : MatrixType α → Nat → RandSVD α) (sqrt : α → α)
    (representer : Representer P) (kernel : MatrixValuedKernel P α)
    (k r : Nat) (p : Equiv.Perm (Fin representer.GetDomain.GetDomainPoints.length))
    (U : MatrixType α) (D : VectorType α)
    (hUD : ComputeKernelMatrixDecomposition svd kernel
      (GetNystromPoints representer.GetDomain r p) k = (U, D))
    (hU : k ≤ U.cols) (hD : k ≤ D.rows) :
    ∃ obj : Nystrom P α, Nystrom.construct svd sqrt representer kernel k r p = .ok obj ∧
      obj.m_nystromPoints = GetNystromPoints representer.GetDomain r p ∧
      obj.m_kernel = kernel ∧ obj.m_numEigenfunctions = k ∧
      obj.m_nystromMatrix.rows = U.rows ∧ obj.m_nystromMatrix.cols = k ∧
      ∀ x j, obj.m_nystromMatrix.coeff x j =
        sqrt (((min r representer.GetDomain.GetNumberOfPoints : Nat) : α) /
            ((representer.GetDomain.GetNumberOfPoints : Nat) : α)) *
          (U.coeff x j * (1 / D.coeff j)) := by
  have h := construct_ok svd sqrt representer kernel k r p (by rw [hUD]; exact hU)
    (by rw [hUD]; exact hD)
  rw [hUD, GetNystromPoints_length] at h
  exact ⟨_, h, rfl, rfl, rfl, rfl, rfl, fun _ _ => rfl⟩

/-! # Claims -/

/-! ## Claims on the kernel matrix -/

/-- C1: for every kernel (symmetry is not assumed), every landmark sequence `xs` and all
block indices `i, j` below the number of landmarks and offsets `a, b` below the kernel
dimension, the matrix `K` assembled by `ComputeKernelMatrixDecomposition` satisfies
`K(i*d+a, j*d+b) = K(j*d+b, i*d+a)`: block `(i, j)` is the transpose of block `(j, i)`,
diagonal blocks included. -/
theorem kernelMatrix_symmetric {P α : Type} [Zero α] [Inhabited P]
    (kernel : MatrixValuedKernel P α) (xs : List P) (i j a b : Nat)
    (_hi : i < xs.length) (_hj : j < xs.length)
    (_ha : a < kernel.GetDimension) (_hb : b < kernel.GetDimension) :
    (kernelMatrix kernel xs).coeff (i * kernel.GetDimension + a) (j * kernel.GetDimension + b) =
      (kernelMatrix kernel xs).coeff (j * kernel.GetDimension + b)
        (i * kernel.GetDimension + a) :=
  kernelMatrix_symm_all kernel xs _ _

/-- Witness of C1: the non-symmetric kernel `asymKernel` on two landmarks, blocks `(0, 1)`
and `(1, 0)`. -/
theorem kernelMatrix_symmetric_witness :
    (kernelMatrix asymKernel [5, 7]).coeff (0 * asymKernel.GetDimension + 0)
        (1 * asymKernel.GetDimension + 1) =
      (kernelMatrix asymKernel [5, 7]).coeff (1 * asymKernel.GetDimension + 1)
        (0 * asymKernel.GetDimension + 0) :=
  kernelMatrix_symmetric asymKernel [5, 7] 0 1 0 1 (by decide) (by decide) (by decide)
    (by decide)

/-- C2: for every kernel with `k(x, y) = k(y, x)^T`, every landmark sequence `xs` of length
`M` and all `i, j < M` (also `i > j`), block `(i, j)` of the assembled matrix equals
`k(xs[i], xs[j])` entry for entry, and the matrix has exactly `M*d` rows and `M*d`
columns. -/
theorem kernelMatrix_content {P α : Type} [Zero α] [Inhabited P]
    (kernel : MatrixValuedKernel P α) (xs : List P)
    (hsym : ∀ x y a b, a < kernel.GetDimension → b < kernel.GetDimension →
      (kernel.call x y).coeff a b = (kernel.call y x).coeff b a)
    (i j a b : Nat) (hi : i < xs.length) (hj : j < xs.length)
    (ha : a < kernel.GetDimension) (hb : b < kernel.GetDimension) :
    (kernelMatrix kernel xs).coeff (i * kernel.GetDimension + a) (j * kernel.GetDimension + b) =
      (kernel.call xs[i] xs[j]).coeff a b ∧
    (kernelMatrix kernel xs).rows = xs.length * kernel.GetDimension ∧
    (kernelMatrix kernel xs).cols = xs.length * kernel.GetDimension := by
  refine ⟨?_, kernelMatrix_shape kernel xs⟩
  rw [← List.getD_eq_getElem xs default hi, ← List.getD_eq_getElem xs default hj]
  rcases Nat.lt_trichotomy i j with hlt | heq | hgt
  · exact kernelMatrix_upper kernel xs i j a b hlt hj ha hb
  · subst heq
    rw [kernelMatrix_diag kernel xs i a b hi ha hb]
    rcases Nat.le_total a b with hab | hab
    · rw [max_eq_right hab, min_eq_left hab]
      exact (hsym _ _ a b ha hb).symm
    · rw [max_eq_left hab, min_eq_right hab]
  · rw [kernelMatrix_symm_all kernel xs, kernelMatrix_upper kernel xs j i b a hgt hi hb ha]
    exact (hsym _ _ a b ha hb).symm

/-- Witness of C2: the symmetric kernel `symKernel` on two landmarks, block `(1, 0)`. -/
theorem kernelMatrix_content_witness :
    (kernelMatrix symKernel [5, 7]).coeff (1 * symKernel.GetDimension + 0)
        (0 * symKernel.GetDimension + 1) = (symKernel.call 7 5).coeff 0 1 ∧
    (kernelMatrix symKernel [5, 7]).rows = 2 * symKernel.GetDimension ∧
    (kernelMatrix symKernel [5, 7]).cols = 2 * symKernel.GetDimension :=
  kernelMatrix_content symKernel [5, 7]
    (by
      intro x y a b _ _
      simp only [symKernel]
      by_cases h1 : a = 0 <;> by_cases h2 : b = 0 <;> simp [h1, h2, mul_comm])
    1 0 0 1 (by decide) (by decide) (by decide) (by decide)

/-- Counterexample to C3: with the kernel whose blocks are `[[1, 2], [3, 4]]` and one
landmark, the coefficient `(0, 1)` of the diagonal block of the assembled matrix is `3`,
while the evaluated block has `2` there. -/
theorem kernelMatrix_diag_block_counterexample :
    (kernelMatrix asymKernel [5]).coeff (0 * 2 + 0) (0 * 2 + 1) = 3 ∧
    (asymKernel.call 5 5).coeff 0 1 = 2 ∧
    (kernelMatrix asymKernel [5]).coeff (0 * 2 + 0) (0 * 2 + 1) ≠
      (asymKernel.call 5 5).coeff 0 1 := by
  have h : (kernelMatrix asymKernel [5]).coeff (0 * 2 + 0) (0 * 2 + 1) = 3 :=
    kernelMatrix_diag asymKernel [5] 0 0 1 (by decide) (by decide) (by decide)
  refine ⟨h, rfl, ?_⟩
  rw [h]
  decide

/-- C3 (amended): for every kernel (symmetry is not assumed), every landmark sequence and
every pair `i ≤ j < M`: when `i < j`, block `(i, j)` of the assembled matrix is exactly the
evaluated block `k(xs[i], xs[j])` and block `(j, i)` is its transpose; a diagonal block
`(i, i)` agrees with `k(xs[i], xs[i])` on and below its diagonal, and is `k(xs[i], xs[i])`
unchanged whenever that block is symmetric. -/
theorem kernelMatrix_assembly {P α : Type} [Zero α] [Inhabited P]
    (kernel : MatrixValuedKernel P α) (xs : List P) (i j a b : Nat)
    (hij : i ≤ j) (hj : j < xs.length)
    (ha : a < kernel.GetDimension) (hb : b < kernel.GetDimension) :
    (i < j →
      (kernelMatrix kernel xs).coeff (i * kernel.GetDimension + a)
          (j * kernel.GetDimension + b) =
        (kernel.call (xs.get ⟨i, lt_of_le_of_lt hij hj⟩) (xs.get ⟨j, hj⟩)).coeff a b ∧
      (kernelMatrix kernel xs).coeff (j * kernel.GetDimension + b)
          (i * kernel.GetDimension + a) =
        (kernel.call (xs.get ⟨i, lt_of_le_of_lt hij hj⟩) (xs.get ⟨j, hj⟩)).coeff a b) ∧
    (i = j → b ≤ a →
      (kernelMatrix kernel xs).coeff (i * kernel.GetDimension + a)
          (j * kernel.GetDimension + b) =
        (kernel.call (xs.get ⟨i, lt_of_le_of_lt hij hj⟩) (xs.get ⟨j, hj⟩)).coeff a b) ∧
    (i = j →
      (∀ a2 b2, a2 < kernel.GetDimension → b2 < kernel.GetDimension →
        (kernel.call (xs.get ⟨j, hj⟩) (xs.get ⟨j, hj⟩)).coeff a2 b2 =
          (kernel.call (xs.get ⟨j, hj⟩) (xs.get ⟨j, hj⟩)).coeff b2 a2) →
      (kernelMatrix kernel xs).coeff (i * kernel.GetDimension + a)
          (j * kernel.GetDimension + b) =
        (kernel.call (xs.get ⟨i, lt_of_le_of_lt hij hj⟩) (xs.get ⟨j, hj⟩)).coeff a b) := by
  have hi : i < xs.length := lt_of_le_of_lt hij hj
  have gi : xs.get ⟨i, hi⟩ = xs.getD i default := by
    rw [List.get_eq_getElem, List.getD_eq_getElem xs default hi]
  have gj : xs.get ⟨j, hj⟩ = xs.getD j default := by
    rw [List.get_eq_getElem, List.getD_eq_getElem xs default hj]
  rw [gi, gj]
  refine ⟨fun hlt => ⟨kernelMatrix_upper kernel xs i j a b hlt hj ha hb, ?_⟩, ?_, ?_⟩
  · rw [kernelMatrix_symm_all kernel xs]
    exact kernelMatrix_upper kernel xs i j a b hlt hj ha hb
  · intro heq hba
    subst heq
    rw [kernelMatrix_diag kernel xs i a b hi ha hb, max_eq_left hba, min_eq_right hba]
  · intro heq hs
    subst heq
    rw [kernelMatrix_diag kernel xs i a b hi ha hb]
    rcases Nat.le_total a b with hab | hab
    · rw [max_eq_right hab, min_eq_left hab]
      exact hs b a hb ha
    · rw [max_eq_left hab, min_eq_right hab]

/-- Witness of C3 (amended): the kernel `asymKernel` on two landmarks, the pair `(0, 1)`. -/
theorem kernelMatrix_assembly_witness :
    (kernelMatrix asymKernel [5, 7]).coeff (0 * asymKernel.GetDimension + 0)
        (1 * asymKernel.GetDimension + 1) = 2 ∧
    (kernelMatrix asymKernel [5, 7]).coeff (1 * asymKernel.GetDimension + 1)
        (0 * asymKernel.GetDimension + 0) = 2 :=
  (kernelMatrix_assembly asymKernel [5, 7] 0 1 0 1 (by decide) (by decide) (by decide)
    (by decide)).1 (by decide)

/-! ## Claims on landmark sampling -/

/-- C4: with the shuffle an arbitrary permutation `p` of the positions of the domain point
list, for every domain of `N` points and every requested count `r`, `GetNystromPoints`
returns a sequence of length exactly `min r N`, namely the first `min r N` elements of the
permuted list; these are the domain points at the first `min r N` positions chosen by `p`,
which are pairwise distinct (no position is selected twice); every returned point is a
domain point; and when `r ≥ N` the result is a permutation of the whole domain. -/
theorem GetNystromPoints_spec {P : Type} [Inhabited P] (domain : Domain P) (r : Nat)
    (p : Equiv.Perm (Fin domain.GetDomainPoints.length)) :
    (GetNystromPoints domain r p).length = min r domain.GetNumberOfPoints ∧
    GetNystromPoints domain r p =
      (random_shuffle domain.GetDomainPoints p).take (min r domain.GetNumberOfPoints) ∧
    GetNystromPoints domain r p =
      ((List.ofFn (fun i => p i)).take (min r domain.GetNumberOfPoints)).map
        (fun i => domain.GetDomainPoints.get i) ∧
    ((List.ofFn (fun i => p i)).take (min r domain.GetNumberOfPoints)).Nodup ∧
    (∀ x, x ∈ GetNystromPoints domain r p → x ∈ domain.GetDomainPoints) ∧
    (domain.GetNumberOfPoints ≤ r →
      (GetNystromPoints domain r p).Perm domain.GetDomainPoints) := by
  have hN : domain.GetNumberOfPoints = domain.GetDomainPoints.length := rfl
  have hle : min r domain.GetNumberOfPoints ≤ (random_shuffle domain.GetDomainPoints p).length := by
    rw [random_shuffle_length, hN]; exact Nat.min_le_right _ _
  have htake : GetNystromPoints domain r p =
      (random_shuffle domain.GetDomainPoints p).take (min r domain.GetNumberOfPoints) := by
    simp only [GetNystromPoints]
    exact resize_of_le _ _ hle
  refine ⟨?_, htake, ?_, ?_, ?_, ?_⟩
  · rw [htake, List.length_take, Nat.min_eq_left hle]
  · rw [htake, random_shuffle_eq_map, List.map_take]
  · exact (List.nodup_ofFn.mpr p.injective).sublist (List.take_sublist _ _)
  · intro x hx
    rw [htake] at hx
    exact (random_shuffle_perm _ p).subset (List.mem_of_mem_take hx)
  · intro hr
    rw [htake, Nat.min_eq_right hr, hN, ← random_shuffle_length _ p, List.take_length]
    exact random_shuffle_perm _ p

/-- Witness of C4: four points, the shuffle swaps the first and the last position, five
points are requested. -/
theorem GetNystromPoints_spec_witness :
    (GetNystromPoints (⟨[10, 11, 12, 13]⟩ : Domain Nat) 5
      (Equiv.swap ⟨0, by decide⟩ ⟨3, by decide⟩)).Perm [10, 11, 12, 13] :=
  (GetNystromPoints_spec (⟨[10, 11, 12, 13]⟩ : Domain Nat) 5
    (Equiv.swap ⟨0, by decide⟩ ⟨3, by decide⟩)).2.2.2.2.2 (by decide)

/-! ## Claims on the constructor -/

/-- C5: over an exact field of scalars, for every solver result `(U, D)` with at least `k`
columns and entries, `U` having the `M*d` rows of the Gram matrix, `D[j] ≠ 0` for `j < k`,
landmark count `M ≥ 1` and domain size `N ≥ 1`, the constructor succeeds and the matrix
`m_nystromMatrix` it stores has shape `(M*d) × k` and entry `(r, j)` equal to
`sqrt(M/N) * U(r, j) / D(j)`, with `M/N` the ratio of the two counts in the field. -/
theorem construct_nystromMatrix_formula {P α : Type} [Field α] [Inhabited P]
    (svd : MatrixType α → Nat → RandSVD α) (sqrt : α → α)
    (representer : Representer P) (kernel : MatrixValuedKernel P α)
    (k r : Nat) (p : Equiv.Perm (Fin representer.GetDomain.GetDomainPoints.length))
    (U : MatrixType α) (D : VectorType α)
    (hUD : ComputeKernelMatrixDecomposition svd kernel
      (GetNystromPoints representer.GetDomain r p) k = (U, D))
    (hrows : U.rows = min r representer.GetDomain.GetNumberOfPoints * kernel.GetDimension)
    (hU : k ≤ U.cols) (hD : k ≤ D.rows)
    (_hne : ∀ j, j < k → D.coeff j ≠ 0)
    (_hM : 1 ≤ min r representer.GetDomain.GetNumberOfPoints)
    (_hN : 1 ≤ representer.GetDomain.GetNumberOfPoints) :
    ∃ obj : Nystrom P α, Nystrom.construct svd sqrt representer kernel k r p = .ok obj ∧
      obj.m_nystromMatrix.rows =
        min r representer.GetDomain.GetNumberOfPoints * kernel.GetDimension ∧
      obj.m_nystromMatrix.cols = k ∧
      ∀ x j, x < min r representer.GetDomain.GetNumberOfPoints * kernel.GetDimension →
        j < k →
        obj.m_nystromMatrix.coeff x j =
          sqrt (((min r representer.GetDomain.GetNumberOfPoints : Nat) : α) /
              ((representer.GetDomain.GetNumberOfPoints : Nat) : α)) *
            U.coeff x j / D.coeff j := by
  have h := construct_ok svd sqrt representer kernel k r p (by rw [hUD]; exact hU)
    (by rw [hUD]; exact hD)
  rw [hUD, GetNystromPoints_length] at h
  refine ⟨_, h, hrows, rfl, ?_⟩
  intro x j _ _
  simp only [mul_one_div, mul_div_assoc]

/-- C6: for every solver eigenvalue vector `D` with at least `k` entries (and `U` with at
least `k` columns), landmark count `M ≥ 1` and domain size `N ≥ 1`, the constructor succeeds
and `GetEigenvalues` returns a vector of length exactly `k` whose `j`-th entry is
`D[j] * N / M`, which is `(1 / normFactor) * D[j]` for `normFactor = M / N`. -/
theorem construct_eigenvalues_formula {P α : Type} [Field α] [CharZero α] [Inhabited P]
    (svd : MatrixType α → Nat → RandSVD α) (sqrt : α → α)
    (representer : Representer P) (kernel : MatrixValuedKernel P α)
    (k r : Nat) (p : Equiv.Perm (Fin representer.GetDomain.GetDomainPoints.length))
    (U : MatrixType α) (D : VectorType α)
    (hUD : ComputeKernelMatrixDecomposition svd kernel
      (GetNystromPoints representer.GetDomain r p) k = (U, D))
    (hU : k ≤ U.cols) (hD : k ≤ D.rows)
    (hM : 1 ≤ min r representer.GetDomain.GetNumberOfPoints)
    (hN : 1 ≤ representer.GetDomain.GetNumberOfPoints) :
    ∃ obj : Nystrom P α, Nystrom.construct svd sqrt representer kernel k r p = .ok obj ∧
      obj.GetEigenvalues.rows = k ∧
      ∀ j, j < k →
        obj.GetEigenvalues.coeff j =
          D.coeff j * ((representer.GetDomain.GetNumberOfPoints : Nat) : α) /
            ((min r representer.GetDomain.GetNumberOfPoints : Nat) : α) ∧
        obj.GetEigenvalues.coeff j =
          1 / (((min r representer.GetDomain.GetNumberOfPoints : Nat) : α) /
            ((representer.GetDomain.GetNumberOfPoints : Nat) : α)) * D.coeff j := by
  have h := construct_ok svd sqrt representer kernel k r p (by rw [hUD]; exact hU)
    (by rw [hUD]; exact hD)
  rw [hUD, GetNystromPoints_length] at h
  refine ⟨_, h, rfl, ?_⟩
  intro j _
  refine ⟨?_, rfl⟩
  simp only [Nystrom.GetEigenvalues]
  have hM0 : ((min r representer.GetDomain.GetNumberOfPoints : Nat) : α) ≠ 0 :=
    Nat.cast_ne_zero.mpr (by omega)
  have hN0 : ((representer.GetDomain.GetNumberOfPoints : Nat) : α) ≠ 0 :=
    Nat.cast_ne_zero.mpr (by omega)
  field_simp
  exact mul_comm _ _

/-- Witness of C5: four domain points, two landmarks, the identity kernel and a solver
returning unit vectors with eigenvalue `2`. -/
theorem construct_nystromMatrix_formula_witness :
    ∃ obj : Nystrom Nat ℚ,
      Nystrom.construct (diagSolver 2) ratSqrt smallRepresenter idKernel 2 2 (Equiv.refl _) =
        .ok obj ∧
      obj.m_nystromMatrix.rows = 2 ∧ obj.m_nystromMatrix.cols = 2 ∧
      obj.m_nystromMatrix.coeff 1 1 = ratSqrt ((2 : ℚ) / 4) * 1 / 2 := by
  obtain ⟨obj, h1, h2, h3, h4⟩ :=
    construct_nystromMatrix_formula (diagSolver 2) ratSqrt smallRepresenter idKernel 2 2
      (Equiv.refl _)
      (ComputeKernelMatrixDecomposition (diagSolver 2) idKernel
        (GetNystromPoints smallRepresenter.GetDomain 2 (Equiv.refl _)) 2).1
      (ComputeKernelMatrixDecomposition (diagSolver 2) idKernel
        (GetNystromPoints smallRepresenter.GetDomain 2 (Equiv.refl _)) 2).2
      rfl (by decide) (by decide) (by decide)
      (by intro j _; simp [ComputeKernelMatrixDecomposition, diagSolver])
      (by decide) (by decide)
  refine ⟨obj, h1, h2, h3, ?_⟩
  rw [h4 1 1 (by decide) (by decide)]
  simp [ComputeKernelMatrixDecomposition, diagSolver, smallRepresenter,
    Domain.GetNumberOfPoints]

/-- Witness of C6, the spec's scenario: `N = 100`, `M = 20`, `D[j] = 1` give `5` for every
`j < 3`. -/
theorem construct_eigenvalues_formula_witness :
    ∃ obj : Nystrom Nat ℚ,
      Nystrom.construct (diagSolver 1) ratSqrt scenarioRepresenter idKernel 3 20
        (Equiv.refl _) = .ok obj ∧
      obj.GetEigenvalues.rows = 3 ∧ ∀ j, j < 3 → obj.GetEigenvalues.coeff j = 5 := by
  have hlen : (GetNystromPoints scenarioRepresenter.GetDomain 20 (Equiv.refl _)).length =
      20 := by
    rw [GetNystromPoints_length]; decide
  obtain ⟨obj, h1, h2, h3⟩ :=
    construct_eigenvalues_formula (diagSolver 1) ratSqrt scenarioRepresenter idKernel 3 20
      (Equiv.refl _)
      (ComputeKernelMatrixDecomposition (diagSolver 1) idKernel
        (GetNystromPoints scenarioRepresenter.GetDomain 20 (Equiv.refl _)) 3).1
      (ComputeKernelMatrixDecomposition (diagSolver 1) idKernel
        (GetNystromPoints scenarioRepresenter.GetDomain 20 (Equiv.refl _)) 3).2
      rfl
      (by
        simp only [ComputeKernelMatrixDecomposition, diagSolver]
        rw [(kernelMatrix_shape _ _).1, hlen]; decide)
      (by
        simp only [ComputeKernelMatrixDecomposition, diagSolver]
        rw [(kernelMatrix_shape _ _).1, hlen]; decide)
      (by decide) (by decide)
  refine ⟨obj, h1, h2, fun j hj => ?_⟩
  rw [(h3 j hj).1]
  have hN : scenarioRepresenter.GetDomain.GetNumberOfPoints = 100 := by decide
  rw [hN]
  simp only [ComputeKernelMatrixDecomposition, diagSolver]
  norm_num

/-- Counterexample to C9: with the kernel that vanishes everywhere the Gram matrix is zero,
an exact solver returns the eigenvalue `0`, and the constructor nevertheless succeeds. -/
theorem construct_zero_eigenvalue_counterexample :
    (ComputeKernelMatrixDecomposition (diagSolver 0) zeroKernel
        (GetNystromPoints smallRepresenter.GetDomain 2 (Equiv.refl _)) 1).2.coeff 0 ≤ 0 ∧
    ∃ obj : Nystrom Nat ℚ,
      Nystrom.construct (diagSolver 0) ratSqrt smallRepresenter zeroKernel 1 2
        (Equiv.refl _) = .ok obj := by
  refine ⟨le_of_eq rfl, _, construct_ok (diagSolver 0) ratSqrt smallRepresenter zeroKernel 1 2
    (Equiv.refl _) (by decide) (by decide)⟩

/-- C9 (amended): a non-positive leading eigenvalue is not an error, the constructor makes
no check on the values of `D`. For every solver result `(U, D)` with at least `k` columns and
entries, landmark count `M ≥ 1` and domain size `N ≥ 1`, if some `D[j]` with `j < k` is
`≤ 0`, construction still succeeds and produces an extension matrix with `k` columns and `k`
eigenvalues; it divides by the value as it is: in every column `j < k` with `D[j] ≠ 0`, a
negative one included, the stored entry is `sqrt(M/N) * U(r, j) / D[j]`, and the stored
eigenvalue is `D[j] * N / M` for every `j < k`. -/
theorem construct_no_positivity_check {P α : Type} [LinearOrderedField α] [Inhabited P]
    (svd : MatrixType α → Nat → RandSVD α) (sqrt : α → α)
    (representer : Representer P) (kernel : MatrixValuedKernel P α)
    (k r : Nat) (p : Equiv.Perm (Fin representer.GetDomain.GetDomainPoints.length))
    (U : MatrixType α) (D : VectorType α)
    (hUD : ComputeKernelMatrixDecomposition svd kernel
      (GetNystromPoints representer.GetDomain r p) k = (U, D))
    (hU : k ≤ U.cols) (hD : k ≤ D.rows)
    (hM : 1 ≤ min r representer.GetDomain.GetNumberOfPoints)
    (hN : 1 ≤ representer.GetDomain.GetNumberOfPoints)
    (_hnonpos : ∃ j, j < k ∧ D.coeff j ≤ 0) :
    ∃ obj : Nystrom P α, Nystrom.construct svd sqrt representer kernel k r p = .ok obj ∧
      obj.m_nystromMatrix.cols = k ∧ obj.GetEigenvalues.rows = k ∧
      (∀ x j, j < k → D.coeff j ≠ 0 →
        obj.m_nystromMatrix.coeff x j =
          sqrt (((min r representer.GetDomain.GetNumberOfPoints : Nat) : α) /
              ((representer.GetDomain.GetNumberOfPoints : Nat) : α)) *
            U.coeff x j / D.coeff j) ∧
      (∀ j, j < k →
        obj.GetEigenvalues.coeff j =
          D.coeff j * ((representer.GetDomain.GetNumberOfPoints : Nat) : α) /
            ((min r representer.GetDomain.GetNumberOfPoints : Nat) : α)) := by
  have h := construct_ok svd sqrt representer kernel k r p (by rw [hUD]; exact hU)
    (by rw [hUD]; exact hD)
  rw [hUD, GetNystromPoints_length] at h
  refine ⟨_, h, rfl, rfl, ?_, ?_⟩
  · intro x j _ _
    simp only [mul_one_div, mul_div_assoc]
  · intro j _
    simp only [Nystrom.GetEigenvalues]
    have hM0 : ((min r representer.GetDomain.GetNumberOfPoints : Nat) : α) ≠ 0 :=
      Nat.cast_ne_zero.mpr (by omega)
    have hN0 : ((representer.GetDomain.GetNumberOfPoints : Nat) : α) ≠ 0 :=
      Nat.cast_ne_zero.mpr (by omega)
    field_simp
    ring

/-- Witness of C9 (amended): a solver returning the eigenvalue `-1` is accepted, and the
stored eigenvalue is `-1 * 4 / 2`. -/
theorem construct_no_positivity_check_witness :
    ∃ obj : Nystrom Nat ℚ,
      Nystrom.construct (diagSolver (-1)) ratSqrt smallRepresenter idKernel 1 2
        (Equiv.refl _) = .ok obj ∧
      obj.GetEigenvalues.coeff 0 = -2 := by
  obtain ⟨obj, h1, _, _, _, h5⟩ :=
    construct_no_positivity_check (diagSolver (-1)) ratSqrt smallRepresenter idKernel 1 2
      (Equiv.refl _) _ _ rfl (by decide) (by decide) (by decide) (by decide)
      ⟨0, by decide, by simp [ComputeKernelMatrixDecomposition, diagSolver]⟩
  refine ⟨obj, h1, ?_⟩
  rw [h5 0 (by decide)]
  have hN : smallRepresenter.GetDomain.GetNumberOfPoints = 4 := by decide
  rw [hN]
  simp only [ComputeKernelMatrixDecomposition, diagSolver]
  norm_num

/-- C10: for every valid construction (solver eigenvalues `D` non-increasing and
`D[j] > 0` for all `j < k`, slices in range, landmark count `M ≥ 1`, hence
`1 ≤ M ≤ N`), the vector returned by `GetEigenvalues` has every entry strictly positive
and is sorted in non-increasing order. -/
theorem eigenvalues_positive_sorted {P α : Type} [LinearOrderedField α]
    [Inhabited P]
    (svd : MatrixType α → Nat → RandSVD α) (sqrt : α → α)
    (representer : Representer P) (kernel : MatrixValuedKernel P α)
    (k r : Nat) (p : Equiv.Perm (Fin representer.GetDomain.GetDomainPoints.length))
    (U : MatrixType α) (D : VectorType α)
    (hUD : ComputeKernelMatrixDecomposition svd kernel
      (GetNystromPoints representer.GetDomain r p) k = (U, D))
    (hU : k ≤ U.cols) (hD : k ≤ D.rows)
    (hsorted : ∀ i j, i ≤ j → j < D.rows → D.coeff j ≤ D.coeff i)
    (hpos : ∀ j, j < k → 0 < D.coeff j)
    (hM : 1 ≤ min r representer.GetDomain.GetNumberOfPoints) :
    ∃ obj : Nystrom P α, Nystrom.construct svd sqrt representer kernel k r p = .ok obj ∧
      obj.GetEigenvalues.rows = k ∧
      (∀ j, j < k → 0 < obj.GetEigenvalues.coeff j) ∧
      (∀ i j, i ≤ j → j < k → obj.GetEigenvalues.coeff j ≤ obj.GetEigenvalues.coeff i) := by
  have h := construct_ok svd sqrt representer kernel k r p (by rw [hUD]; exact hU)
    (by rw [hUD]; exact hD)
  rw [hUD, GetNystromPoints_length] at h
  have hN : 1 ≤ representer.GetDomain.GetNumberOfPoints :=
    le_trans hM (Nat.min_le_right _ _)
  have hc : (0 : α) < 1 / (((min r representer.GetDomain.GetNumberOfPoints : Nat) : α) /
      ((representer.GetDomain.GetNumberOfPoints : Nat) : α)) :=
    inv_normFactor_pos _ _ hM hN
  refine ⟨_, h, rfl, ?_, ?_⟩
  · intro j hj
    exact mul_pos hc (hpos j hj)
  · intro i j hij hj
    exact mul_le_mul_of_nonneg_left (hsorted i j hij (lt_of_lt_of_le hj hD)) (le_of_lt hc)

/-- Witness of C10, the spec's scenario: 100 points, 20 landmarks, three eigenvalues `1`. -/
theorem eigenvalues_positive_sorted_witness :
    ∃ obj : Nystrom Nat ℚ,
      Nystrom.construct (diagSolver 1) ratSqrt scenarioRepresenter idKernel 3 20
        (Equiv.refl _) = .ok obj ∧
      obj.GetEigenvalues.rows = 3 ∧
      (∀ j, j < 3 → 0 < obj.GetEigenvalues.coeff j) ∧
      (∀ i j, i ≤ j → j < 3 → obj.GetEigenvalues.coeff j ≤ obj.GetEigenvalues.coeff i) := by
  have hlen : (GetNystromPoints scenarioRepresenter.GetDomain 20 (Equiv.refl _)).length =
      20 := by
    rw [GetNystromPoints_length]; decide
  exact eigenvalues_positive_sorted (diagSolver 1) ratSqrt scenarioRepresenter
    idKernel 3 20 (Equiv.refl _) _ _ rfl
    (by
      simp only [ComputeKernelMatrixDecomposition, diagSolver]
      rw [(kernelMatrix_shape _ _).1, hlen]; decide)
    (by
      simp only [ComputeKernelMatrixDecomposition, diagSolver]
      rw [(kernelMatrix_shape _ _).1, hlen]; decide)
    (by intro i j _ _; simp [ComputeKernelMatrixDecomposition, diagSolver])
    (by intro j _; simp [ComputeKernelMatrixDecomposition, diagSolver])
    (by decide)

/-! ## Claims on the evaluation -/

/-- C7: for every query point `pt`, every landmark sequence of length `M ≥ 0` and every
stored extension matrix `E` of shape `(M*d) × k`, `ComputeEigenfunctionsAtPoint(pt)` returns
a matrix of shape exactly `d × k` whose entry `(a, j)` is the sum over `i < M` and `b < d` of
`k(pt, xs[i])(a, b) * E(i*d + b, j)`; this is the entry of the single product
`K_point · E` of the spec, `K_point` being the horizontal concatenation of the blocks
`k(pt, xs[0]), ..., k(pt, xs[M-1])`. -/
theorem ComputeEigenfunctionsAtPoint_spec {P α : Type} [Semiring α] [Inhabited P]
    (self : Nystrom P α) (pt : P)
    (hrows : self.m_nystromMatrix.rows =
      self.m_nystromPoints.length * self.m_kernel.GetDimension)
    (hcols : self.m_nystromMatrix.cols = self.m_numEigenfunctions) :
    ∃ R : MatrixType α, self.ComputeEigenfunctionsAtPoint pt = .ok R ∧
      R.rows = self.m_kernel.GetDimension ∧ R.cols = self.m_numEigenfunctions ∧
      (∀ a j, a < self.m_kernel.GetDimension → j < self.m_numEigenfunctions →
        R.coeff a j =
          ∑ i in Finset.range self.m_nystromPoints.length,
            ∑ b in Finset.range self.m_kernel.GetDimension,
              (self.m_kernel.call pt (self.m_nystromPoints.getD i default)).coeff a b *
                self.m_nystromMatrix.coeff (i * self.m_kernel.GetDimension + b) j) ∧
      R.rows = (Evaluate_spec self pt).rows ∧ R.cols = (Evaluate_spec self pt).cols ∧
      (∀ a j, a < self.m_kernel.GetDimension → j < self.m_numEigenfunctions →
        R.coeff a j = (Evaluate_spec self pt).coeff a j) := by
  obtain ⟨kxi, hk, hkr, hkc, hkv⟩ := kxi_loop self.m_kernel self.m_nystromPoints pt
  obtain ⟨R, hR, hRr, hRc, hRv⟩ := resMat_loop kxi self.m_nystromMatrix
    self.m_kernel.GetDimension self.m_numEigenfunctions hkr (by rw [hkc, hrows]) hcols
  have hsum : ∀ a j, a < self.m_kernel.GetDimension → j < self.m_numEigenfunctions →
      R.coeff a j =
        ∑ i in Finset.range self.m_nystromPoints.length,
          ∑ b in Finset.range self.m_kernel.GetDimension,
            (self.m_kernel.call pt (self.m_nystromPoints.getD i default)).coeff a b *
              self.m_nystromMatrix.coeff (i * self.m_kernel.GetDimension + b) j := by
    intro a j ha hj
    rw [hRv a j ha hj, hkc, sum_range_blocks]
    apply Finset.sum_congr rfl
    intro i hi
    apply Finset.sum_congr rfl
    intro b hb
    rw [hkv i a b (Finset.mem_range.mp hi) ha (Finset.mem_range.mp hb)]
  refine ⟨R, ?_, hRr, hRc, hsum, hRr, ?_, ?_⟩
  · simp only [Nystrom.ComputeEigenfunctionsAtPoint, hk, bind, Except.bind]
    exact hR
  · rw [hRc, ← hcols]; rfl
  · intro a j ha hj
    rw [hsum a j ha hj]
    simp only [Evaluate_spec, K_point]
    rw [sum_range_blocks]
    apply Finset.sum_congr rfl
    intro i _
    apply Finset.sum_congr rfl
    intro b hb
    have hb2 := Finset.mem_range.mp hb
    have e1 : (i * self.m_kernel.GetDimension + b) / self.m_kernel.GetDimension = i := by
      rw [Nat.add_comm, Nat.add_mul_div_right _ _ (by omega), Nat.div_eq_of_lt hb2,
        Nat.zero_add]
    have e2 : (i * self.m_kernel.GetDimension + b) % self.m_kernel.GetDimension = b := by
      rw [Nat.add_comm, Nat.add_mul_mod_self_right, Nat.mod_eq_of_lt hb2]
    rw [e1, e2]

/-- Witness of C7: two landmarks, the scalar identity kernel and a `2 × 2` extension
matrix, evaluated at the landmark `10`. -/
theorem ComputeEigenfunctionsAtPoint_spec_witness :
    ∃ R : MatrixType ℚ, exNystrom.ComputeEigenfunctionsAtPoint 10 = .ok R ∧
      R.rows = 1 ∧ R.cols = 2 ∧ R.coeff 0 0 = 1 / 2 ∧ R.coeff 0 1 = 0 := by
  obtain ⟨R, h1, h2, h3, h4, _⟩ :=
    ComputeEigenfunctionsAtPoint_spec exNystrom 10 (by decide) (by decide)
  refine ⟨R, h1, h2, h3, ?_, ?_⟩
  · rw [h4 0 0 (by decide) (by decide)]
    simp [exNystrom, Finset.sum_range_succ]
  · rw [h4 0 1 (by decide) (by decide)]
    simp [exNystrom, Finset.sum_range_succ]

/-! ## Claims on temporary names -/

/-- C17: for every extension `e` and every sequence of 16 indices drawn from the range
`[0, sizeof(sk_pathChars) - 2] = [0, 34]` of the distribution, `CreateTmpName(e)` returns a
string of length `19 + |e|` that ends with `e` unchanged, has `-` at the positions 4, 9 and
14, and whose other 16 leading characters belong to the 35-character alphabet
`0123456789abcdefghiklmnopqrstuvwxyz`; every index used is a valid position of that
alphabet and never reads the terminating NUL. -/
theorem CreateTmpName_format (draw : Nat → Nat) (e : List Char)
    (hdraw : ∀ n, n < 16 → draw n ≤ s_randIndex_max) :
    s_randIndex_max = 34 ∧
    "0123456789abcdefghiklmnopqrstuvwxyz".toList.length = 35 ∧
    (∃ s : List Char, CreateTmpName draw e = some s ∧
      s.length = 19 + e.length ∧ s.drop 19 = e ∧
      s[4]? = some '-' ∧ s[9]? = some '-' ∧ s[14]? = some '-' ∧
      ∀ i, i < 19 → i ≠ 4 → i ≠ 9 → i ≠ 14 →
        ∃ x, s[i]? = some x ∧ x ∈ "0123456789abcdefghiklmnopqrstuvwxyz".toList) ∧
    (∀ n, n < 16 →
      draw n < "0123456789abcdefghiklmnopqrstuvwxyz".toList.length ∧
      ∃ c, sk_pathChars[draw n]? = some c ∧ c ≠ Char.ofNat 0) := by
  refine ⟨by decide, by decide, ?_, ?_⟩
  · obtain ⟨m, hm, hlen, hall⟩ := fillMask_spec draw "%%%%-%%%%-%%%%-%%%%".toList 0
      (fun n _ h2 => hdraw n (by
        have hc : "%%%%-%%%%-%%%%-%%%%".toList.count '%' = 16 := by decide
        omega))
    have hlen19 : m.length = 19 := by rw [hlen]; decide
    have hget : ∀ i, i < 19 → (m ++ e)[i]? = m[i]? := fun i hi =>
      List.getElem?_append_left (by omega)
    refine ⟨m ++ e, ?_, ?_, ?_, ?_, ?_, ?_, ?_⟩
    · simp only [CreateTmpName, hm, Option.map_some']
    · simp [hlen19]
    · rw [← hlen19, List.drop_left]
    · rw [hget 4 (by omega)]
      exact (hall 4 '-' (by decide)).1 (by decide)
    · rw [hget 9 (by omega)]
      exact (hall 9 '-' (by decide)).1 (by decide)
    · rw [hget 14 (by omega)]
      exact (hall 14 '-' (by decide)).1 (by decide)
    · intro i hi h4 h9 h14
      rw [hget i hi]
      have hmask : "%%%%-%%%%-%%%%-%%%%".toList[i]? = some '%' := by
        interval_cases i <;> first | omega | decide
      exact (hall i '%' hmask).2 rfl
  · intro n hn
    obtain ⟨h1, c, h2, _, h3⟩ := sk_pathChars_index (draw n) (hdraw n hn)
    exact ⟨h1, c, h2, h3⟩

/-- Witness of C17: the draws `0, 1, ..., 15` and the extension `.txt` give the name
`0123-4567-89ab-cdef.txt`. -/
theorem CreateTmpName_format_witness :
    CreateTmpName (fun n => n) ".txt".toList = some "0123-4567-89ab-cdef.txt".toList ∧
    ∃ s : List Char, CreateTmpName (fun n => n) ".txt".toList = some s ∧
      s.length = 19 + ".txt".toList.length ∧ s.drop 19 = ".txt".toList :=
  ⟨by decide,
    match (CreateTmpName_format (fun n => n) ".txt".toList
      (fun n hn => by
        show n ≤ s_randIndex_max
        have : s_randIndex_max = 34 := by decide
        omega)).2.2.1 with
    | ⟨s, h1, h2, h3, _⟩ => ⟨s, h1, h2, h3⟩⟩

/-! ## Claims on full sampling, the solver call and diagonal blocks -/

/-- C11: for every domain of size `N ≥ 1` and requested landmark count equal to `N`, the
landmark count `M` equals `N`, `normFactor` equals `1`, and (the slices being in range and
`sqrt 1 = 1`) `GetEigenvalues` returns exactly the first `k` raw solver eigenvalues
`D[0..k-1]` and the extension matrix has the entries `U(r, j) / D(j)`. -/
theorem full_sampling_identity {P α : Type} [Field α] [CharZero α] [Inhabited P]
    (svd : MatrixType α → Nat → RandSVD α) (sqrt : α → α)
    (representer : Representer P) (kernel : MatrixValuedKernel P α)
    (k : Nat) (p : Equiv.Perm (Fin representer.GetDomain.GetDomainPoints.length))
    (U : MatrixType α) (D : VectorType α)
    (hUD : ComputeKernelMatrixDecomposition svd kernel
      (GetNystromPoints representer.GetDomain representer.GetDomain.GetNumberOfPoints p) k =
        (U, D))
    (hU : k ≤ U.cols) (hD : k ≤ D.rows)
    (hN : 1 ≤ representer.GetDomain.GetNumberOfPoints) (hsqrt : sqrt 1 = 1) :
    ∃ obj : Nystrom P α,
      Nystrom.construct svd sqrt representer kernel k
        representer.GetDomain.GetNumberOfPoints p = .ok obj ∧
      obj.m_nystromPoints.length = representer.GetDomain.GetNumberOfPoints ∧
      ((obj.m_nystromPoints.length : Nat) : α) /
        ((representer.GetDomain.GetNumberOfPoints : Nat) : α) = 1 ∧
      obj.GetEigenvalues.rows = k ∧
      (∀ j, j < k → obj.GetEigenvalues.coeff j = D.coeff j) ∧
      (∀ x j, j < k → obj.m_nystromMatrix.coeff x j = U.coeff x j / D.coeff j) := by
  have h := construct_ok svd sqrt representer kernel k
    representer.GetDomain.GetNumberOfPoints p (by rw [hUD]; exact hU) (by rw [hUD]; exact hD)
  have hlen := GetNystromPoints_length representer.GetDomain
    representer.GetDomain.GetNumberOfPoints p
  rw [Nat.min_self] at hlen
  have hN0 : ((representer.GetDomain.GetNumberOfPoints : Nat) : α) ≠ 0 :=
    Nat.cast_ne_zero.mpr (by omega)
  rw [hUD, hlen, div_self hN0] at h
  refine ⟨_, h, hlen, ?_, rfl, ?_, ?_⟩
  · show ((GetNystromPoints representer.GetDomain representer.GetDomain.GetNumberOfPoints
      p).length : α) / _ = 1
    rw [hlen, div_self hN0]
  · intro j _
    simp [Nystrom.GetEigenvalues]
  · intro x j _
    simp only [hsqrt, one_mul, mul_one_div]

/-- Witness of C11: four domain points, four landmarks, a solver returning unit vectors
with eigenvalue `2`. -/
theorem full_sampling_identity_witness :
    ∃ obj : Nystrom Nat ℚ,
      Nystrom.construct (diagSolver 2) ratSqrt smallRepresenter idKernel 2 4 (Equiv.refl _) =
        .ok obj ∧
      obj.m_nystromPoints.length = 4 ∧
      (∀ j, j < 2 → obj.GetEigenvalues.coeff j = 2) ∧
      obj.m_nystromMatrix.coeff 1 1 = 1 / 2 := by
  obtain ⟨obj, h1, h2, _, _, h5, h6⟩ :=
    full_sampling_identity (diagSolver 2) ratSqrt smallRepresenter idKernel 2 (Equiv.refl _)
      _ _ rfl (by decide) (by decide) (by decide)
      (by simp [ratSqrt])
  refine ⟨obj, h1, h2, fun j hj => ?_, ?_⟩
  · rw [h5 j hj]; rfl
  · rw [h6 1 1 (by decide)]
    simp [ComputeKernelMatrixDecomposition, diagSolver]

/-- C15: for every kernel dimension `d ≥ 1`, landmark count `M` and eigenfunction count
`k ≤ M`, the constructor runs the eigensolver with target rank exactly `k*d` on the Gram
matrix of size `n = M*d`, so that `targetRank ≤ n`; when the solver's answer to that call
has the contract shapes (`U` of shape `(M*d) × (k*d)`, `D` of length `k*d`), the slices
`U.leftCols(k)` and `D.topRows(k)` are within bounds (`k ≤ k*d`), the constructor does
not fail, and its results have the shapes `(M*d) × k` and `k`. -/
theorem solver_rank_and_slices {P α : Type} [Field α] [Inhabited P]
    (svd : MatrixType α → Nat → RandSVD α) (sqrt : α → α)
    (representer : Representer P) (kernel : MatrixValuedKernel P α)
    (k r : Nat) (p : Equiv.Perm (Fin representer.GetDomain.GetDomainPoints.length))
    (hd : 1 ≤ kernel.GetDimension)
    (hk : k ≤ min r representer.GetDomain.GetNumberOfPoints)
    (hUrows : (svd (kernelMatrix kernel (GetNystromPoints representer.GetDomain r p))
      (k * kernel.GetDimension)).MatrixU.rows =
        min r representer.GetDomain.GetNumberOfPoints * kernel.GetDimension)
    (hUcols : (svd (kernelMatrix kernel (GetNystromPoints representer.GetDomain r p))
      (k * kernel.GetDimension)).MatrixU.cols = k * kernel.GetDimension)
    (hDrows : (svd (kernelMatrix kernel (GetNystromPoints representer.GetDomain r p))
      (k * kernel.GetDimension)).SingularValues.rows = k * kernel.GetDimension) :
    ComputeKernelMatrixDecomposition svd kernel
        (GetNystromPoints representer.GetDomain r p) k =
      ((svd (kernelMatrix kernel (GetNystromPoints representer.GetDomain r p))
          (k * kernel.GetDimension)).MatrixU,
        (svd (kernelMatrix kernel (GetNystromPoints representer.GetDomain r p))
          (k * kernel.GetDimension)).SingularValues) ∧
    (kernelMatrix kernel (GetNystromPoints representer.GetDomain r p)).rows =
      min r representer.GetDomain.GetNumberOfPoints * kernel.GetDimension ∧
    (kernelMatrix kernel (GetNystromPoints representer.GetDomain r p)).cols =
      min r representer.GetDomain.GetNumberOfPoints * kernel.GetDimension ∧
    k * kernel.GetDimension ≤
      (kernelMatrix kernel (GetNystromPoints representer.GetDomain r p)).rows ∧
    k ≤ k * kernel.GetDimension ∧
    (∃ Uk : MatrixType α,
      (svd (kernelMatrix kernel (GetNystromPoints representer.GetDomain r p))
        (k * kernel.GetDimension)).MatrixU.leftCols k = .ok Uk ∧
      Uk.rows = min r representer.GetDomain.GetNumberOfPoints * kernel.GetDimension ∧
      Uk.cols = k) ∧
    (∃ Dk : VectorType α,
      (svd (kernelMatrix kernel (GetNystromPoints representer.GetDomain r p))
        (k * kernel.GetDimension)).SingularValues.topRows k = .ok Dk ∧ Dk.rows = k) ∧
    ∃ obj : Nystrom P α, Nystrom.construct svd sqrt representer kernel k r p = .ok obj ∧
      obj.m_nystromMatrix.rows =
        min r representer.GetDomain.GetNumberOfPoints * kernel.GetDimension ∧
      obj.m_nystromMatrix.cols = k ∧ obj.GetEigenvalues.rows = k := by
  have hkd : k ≤ k * kernel.GetDimension := Nat.le_mul_of_pos_right k hd
  have hshape := kernelMatrix_shape kernel (GetNystromPoints representer.GetDomain r p)
  rw [GetNystromPoints_length] at hshape
  refine ⟨rfl, hshape.1, hshape.2, ?_, hkd, ?_, ?_, ?_⟩
  · rw [hshape.1]
    exact Nat.mul_le_mul_right _ hk
  · simp only [MatrixType.leftCols]
    rw [if_pos (by rw [hUcols]; exact hkd)]
    exact ⟨_, rfl, hUrows, rfl⟩
  · simp only [VectorType.topRows]
    rw [if_pos (by rw [hDrows]; exact hkd)]
    exact ⟨_, rfl, rfl⟩
  · refine ⟨_, construct_ok svd sqrt representer kernel k r p ?_ ?_, hUrows, rfl, rfl⟩
    · show k ≤ (svd _ _).MatrixU.cols
      rw [hUcols]; exact hkd
    · show k ≤ (svd _ _).SingularValues.rows
      rw [hDrows]; exact hkd

/-- Witness of C15: four domain points, three landmarks of a scalar kernel and two
eigenfunctions. -/
theorem solver_rank_and_slices_witness :
    ∃ obj : Nystrom Nat ℚ,
      Nystrom.construct (diagSolver 1) ratSqrt smallRepresenter idKernel 2 3 (Equiv.refl _) =
        .ok obj ∧
      obj.m_nystromMatrix.rows = 3 ∧ obj.m_nystromMatrix.cols = 2 ∧
      obj.GetEigenvalues.rows = 2 :=
  (solver_rank_and_slices (diagSolver 1) ratSqrt smallRepresenter idKernel 2 3 (Equiv.refl _)
    (by decide) (by decide) (by decide) (by decide) (by decide)).2.2.2.2.2.2.2

/-- C16: for every kernel (symmetry is not assumed), every landmark index `i < M` and all
`a, b < d`, the assembled Gram matrix satisfies
`K(i*d + a, i*d + b) = k(xs[i], xs[i])(max a b, min a b)`: the inner loop writes both
`(a, b)` and `(b, a)` also when `i = j`, the later write wins, and above the diagonal of
the block the stored entry is the one from below the diagonal. -/
theorem kernelMatrix_diagonal_block {P α : Type} [Zero α] [Inhabited P]
    (kernel : MatrixValuedKernel P α) (xs : List P) (i a b : Nat)
    (hi : i < xs.length)
    (ha : a < kernel.GetDimension) (hb : b < kernel.GetDimension) :
    (kernelMatrix kernel xs).coeff (i * kernel.GetDimension + a)
        (i * kernel.GetDimension + b) =
      (kernel.call xs[i] xs[i]).coeff (max a b) (min a b) ∧
    (a < b →
      (kernelMatrix kernel xs).coeff (i * kernel.GetDimension + a)
          (i * kernel.GetDimension + b) =
        (kernel.call xs[i] xs[i]).coeff b a) := by
  have h := kernelMatrix_diag kernel xs i a b hi ha hb
  rw [List.getD_eq_getElem xs default hi] at h
  refine ⟨h, fun hab => ?_⟩
  rw [h, max_eq_right (le_of_lt hab), min_eq_left (le_of_lt hab)]

/-- Witness of C16: the kernel with blocks `[[1, 2], [3, 4]]` and one landmark; the entry
`(0, 1)` of the diagonal block is the kernel's entry `(1, 0)`. -/
theorem kernelMatrix_diagonal_block_witness :
    (kernelMatrix asymKernel [5]).coeff (0 * asymKernel.GetDimension + 0)
        (0 * asymKernel.GetDimension + 1) = (asymKernel.call 5 5).coeff 1 0 :=
  (kernelMatrix_diagonal_block asymKernel [5] 0 0 1 (by decide) (by decide) (by decide)).2
    (by decide)

/-! ## Claims on the identity-kernel scenario -/

/-- C13: for every domain whose points are pairwise distinct, every shuffle permutation and
every requested landmark count, with the scalar identity kernel (`d = 1`, `k(x, y) = 1` if
`x = y` else `0`) the Gram matrix assembled over the landmarks returned by
`GetNystromPoints` is exactly the `M × M` identity matrix, `M = min(requested, N)`. -/
theorem identity_kernel_gram {P α : Type} [DecidableEq P] [Zero α] [One α] [Inhabited P]
    (domain : Domain P) (r : Nat) (p : Equiv.Perm (Fin domain.GetDomainPoints.length))
    (hdistinct : domain.GetDomainPoints.Nodup) :
    (kernelMatrix (identityKernel P α) (GetNystromPoints domain r p)).rows =
      min r domain.GetNumberOfPoints ∧
    (kernelMatrix (identityKernel P α) (GetNystromPoints domain r p)).cols =
      min r domain.GetNumberOfPoints ∧
    ∀ i j, i < min r domain.GetNumberOfPoints → j < min r domain.GetNumberOfPoints →
      (kernelMatrix (identityKernel P α) (GetNystromPoints domain r p)).coeff i j =
        if i = j then 1 else 0 := by
  have hshape := kernelMatrix_shape (α := α) (identityKernel P α) (GetNystromPoints domain r p)
  have hd : (identityKernel P α).GetDimension = 1 := rfl
  rw [GetNystromPoints_length, hd, Nat.mul_one] at hshape
  refine ⟨hshape.1, hshape.2, fun i j hi hj => ?_⟩
  exact kernelMatrix_identity _ (GetNystromPoints_nodup domain r p hdistinct) i j
    (by rw [GetNystromPoints_length]; exact hi) (by rw [GetNystromPoints_length]; exact hj)

/-- Witness of C13, the spec's scenario: 100 distinct points and 20 landmarks give the
`20 × 20` identity matrix. -/
theorem identity_kernel_gram_witness :
    (kernelMatrix (identityKernel Nat ℚ)
      (GetNystromPoints scenarioRepresenter.GetDomain 20 (Equiv.refl _))).rows = 20 ∧
    (kernelMatrix (identityKernel Nat ℚ)
      (GetNystromPoints scenarioRepresenter.GetDomain 20 (Equiv.refl _))).cols = 20 ∧
    ∀ i j, i < 20 → j < 20 →
      (kernelMatrix (identityKernel Nat ℚ)
        (GetNystromPoints scenarioRepresenter.GetDomain 20 (Equiv.refl _))).coeff i j =
        if i = j then 1 else 0 :=
  identity_kernel_gram scenarioRepresenter.GetDomain 20 (Equiv.refl _) (List.nodup_range 100)

/-- C12: for every symmetric kernel (`k(x, y) = k(y, x)^T`), landmark sequence `xs` of
length `M ≥ 1`, domain size `N ≥ 1` and solver result `(U, D)` whose first `k` columns are
exact eigenpairs of the assembled Gram matrix `K` (`K · U[:, j] = D[j] · U[:, j]` and
`D[j] > 0` for `j < k`), the object built by the constructor evaluates at every landmark
`xs[i]` to the `d × k` matrix with entry `(a, j)` equal to `sqrt(M/N) * U(i*d + a, j)`. -/
theorem nystrom_reproduces_at_landmarks {P α : Type} [LinearOrderedField α] [Inhabited P]
    (svd : MatrixType α → Nat → RandSVD α) (sqrt : α → α)
    (representer : Representer P) (kernel : MatrixValuedKernel P α)
    (k r : Nat) (p : Equiv.Perm (Fin representer.GetDomain.GetDomainPoints.length))
    (U : MatrixType α) (D : VectorType α)
    (hsym : ∀ x y a b, a < kernel.GetDimension → b < kernel.GetDimension →
      (kernel.call x y).coeff a b = (kernel.call y x).coeff b a)
    (hUD : ComputeKernelMatrixDecomposition svd kernel
      (GetNystromPoints representer.GetDomain r p) k = (U, D))
    (hrows : U.rows = min r representer.GetDomain.GetNumberOfPoints * kernel.GetDimension)
    (hU : k ≤ U.cols) (hD : k ≤ D.rows)
    (heig : ∀ x j, x < min r representer.GetDomain.GetNumberOfPoints * kernel.GetDimension →
      j < k →
      ∑ l in Finset.range (min r representer.GetDomain.GetNumberOfPoints *
          kernel.GetDimension),
        (kernelMatrix kernel (GetNystromPoints representer.GetDomain r p)).coeff x l *
          U.coeff l j = D.coeff j * U.coeff x j)
    (hpos : ∀ j, j < k → 0 < D.coeff j)
    (_hM : 1 ≤ min r representer.GetDomain.GetNumberOfPoints)
    (_hN : 1 ≤ representer.GetDomain.GetNumberOfPoints) :
    ∃ obj : Nystrom P α, Nystrom.construct svd sqrt representer kernel k r p = .ok obj ∧
      ∀ i, i < min r representer.GetDomain.GetNumberOfPoints →
        ∃ R : MatrixType α,
          obj.ComputeEigenfunctionsAtPoint
            ((GetNystromPoints representer.GetDomain r p).getD i default) = .ok R ∧
          R.rows = kernel.GetDimension ∧ R.cols = k ∧
          ∀ a j, a < kernel.GetDimension → j < k →
            R.coeff a j =
              sqrt (((min r representer.GetDomain.GetNumberOfPoints : Nat) : α) /
                  ((representer.GetDomain.GetNumberOfPoints : Nat) : α)) *
                U.coeff (i * kernel.GetDimension + a) j := by
  obtain ⟨obj, hobj, hpts, hker, hnum, hEr, hEc, hE⟩ :=
    construct_ok_fields svd sqrt representer kernel k r p U D hUD hU hD
  have hlen := GetNystromPoints_length representer.GetDomain r p
  refine ⟨obj, hobj, fun i hi => ?_⟩
  obtain ⟨R, hR, hRr, hRc, hRv⟩ := evaluate_sum obj
    ((GetNystromPoints representer.GetDomain r p).getD i default)
    (by rw [hEr, hpts, hker, hrows, hlen]) (by rw [hEc, hnum])
  rw [hker] at hRr
  rw [hnum] at hRc
  refine ⟨R, hR, hRr, hRc, fun a j ha hj => ?_⟩
  rw [hRv a j (by rw [hker]; exact ha) (by rw [hnum]; exact hj), hpts, hker, hlen]
  have hDj : D.coeff j ≠ 0 := ne_of_gt (hpos j hj)
  have hx : i * kernel.GetDimension + a <
      min r representer.GetDomain.GetNumberOfPoints * kernel.GetDimension := by
    have := Nat.mul_le_mul_right kernel.GetDimension (Nat.succ_le_of_lt hi)
    rw [Nat.succ_mul] at this
    omega
  have h1 : ∑ i2 in Finset.range (min r representer.GetDomain.GetNumberOfPoints),
      ∑ b in Finset.range kernel.GetDimension,
        (kernel.call ((GetNystromPoints representer.GetDomain r p).getD i default)
            ((GetNystromPoints representer.GetDomain r p).getD i2 default)).coeff a b *
          obj.m_nystromMatrix.coeff (i2 * kernel.GetDimension + b) j =
      ∑ i2 in Finset.range (min r representer.GetDomain.GetNumberOfPoints),
        ∑ b in Finset.range kernel.GetDimension,
          (fun l =>
            (kernelMatrix kernel (GetNystromPoints representer.GetDomain r p)).coeff
                (i * kernel.GetDimension + a) l * U.coeff l j *
              (sqrt (((min r representer.GetDomain.GetNumberOfPoints : Nat) : α) /
                  ((representer.GetDomain.GetNumberOfPoints : Nat) : α)) * (1 / D.coeff j)))
            (i2 * kernel.GetDimension + b) := by
    apply Finset.sum_congr rfl
    intro i2 hi2
    apply Finset.sum_congr rfl
    intro b hb
    have hi2 := Finset.mem_range.mp hi2
    have hb := Finset.mem_range.mp hb
    rw [hE]
    simp only
    rw [kernelMatrix_entry_symm kernel _ hsym i i2 a b (by rw [hlen]; exact hi)
      (by rw [hlen]; exact hi2) ha hb]
    ring
  have h2 := sum_range_blocks
    (fun l =>
      (kernelMatrix kernel (GetNystromPoints representer.GetDomain r p)).coeff
          (i * kernel.GetDimension + a) l * U.coeff l j *
        (sqrt (((min r representer.GetDomain.GetNumberOfPoints : Nat) : α) /
            ((representer.GetDomain.GetNumberOfPoints : Nat) : α)) * (1 / D.coeff j)))
    (min r representer.GetDomain.GetNumberOfPoints) kernel.GetDimension
  rw [h1.trans h2.symm, ← Finset.sum_mul, heig _ j hx hj]
  field_simp
  ring


/-- Witness of C12, the spec's identity-kernel scenario (`N = 100`, `M = 20`, `k = 3`,
`d = 1`): at the landmark `i` the evaluation is `sqrt(20/100)` times row `i` of the
eigenvector matrix. -/
theorem nystrom_reproduces_at_landmarks_witness :
    ∃ obj : Nystrom Nat ℚ,
      Nystrom.construct (diagSolver 1) ratSqrt scenarioRepresenter (identityKernel Nat ℚ) 3 20
        (Equiv.refl _) = .ok obj ∧
      ∀ i, i < 20 →
        ∃ R : MatrixType ℚ,
          obj.ComputeEigenfunctionsAtPoint
            ((GetNystromPoints scenarioRepresenter.GetDomain 20 (Equiv.refl _)).getD i
              default) = .ok R ∧
          R.rows = 1 ∧ R.cols = 3 ∧
          ∀ j, j < 3 → R.coeff 0 j = ratSqrt ((20 : ℚ) / 100) * (if i = j then 1 else 0) := by
  have hlen : (GetNystromPoints scenarioRepresenter.GetDomain 20 (Equiv.refl _)).length =
      20 := by
    rw [GetNystromPoints_length]; decide
  have hN : scenarioRepresenter.GetDomain.GetNumberOfPoints = 100 := by decide
  have hmin : min 20 scenarioRepresenter.GetDomain.GetNumberOfPoints = 20 := by decide
  have hnodup : (GetNystromPoints scenarioRepresenter.GetDomain 20 (Equiv.refl _)).Nodup :=
    GetNystromPoints_nodup _ _ _ (List.nodup_range 100)
  obtain ⟨obj, h1, h2⟩ :=
    nystrom_reproduces_at_landmarks (diagSolver 1) ratSqrt scenarioRepresenter
      (identityKernel Nat ℚ) 3 20 (Equiv.refl _) _ _
      (fun x y a b _ _ => identityKernel_symm Nat ℚ x y a b)
      rfl
      (by
        simp only [ComputeKernelMatrixDecomposition, diagSolver]
        rw [(kernelMatrix_shape _ _).1, hlen, hmin])
      (by
        simp only [ComputeKernelMatrixDecomposition, diagSolver]
        rw [(kernelMatrix_shape _ _).1, hlen]; decide)
      (by
        simp only [ComputeKernelMatrixDecomposition, diagSolver]
        rw [(kernelMatrix_shape _ _).1, hlen]; decide)
      (by
        intro x j hx hj
        rw [hmin] at hx ⊢
        have hd : (identityKernel Nat ℚ).GetDimension = 1 := rfl
        rw [hd, Nat.mul_one] at hx ⊢
        simp only [ComputeKernelMatrixDecomposition, diagSolver]
        rw [Finset.sum_congr rfl (fun l hl => by
          rw [kernelMatrix_identity _ hnodup x l (by rw [hlen]; exact hx)
            (by rw [hlen]; exact Finset.mem_range.mp hl)])]
        simp [Finset.sum_ite_eq, hx]
        intro h
        exact absurd h (by omega))
      (by intro j _; simp [ComputeKernelMatrixDecomposition, diagSolver])
      (by decide) (by decide)
  refine ⟨obj, h1, fun i hi => ?_⟩
  obtain ⟨R, hR, hRr, hRc, hRv⟩ := h2 i (by rw [hmin]; exact hi)
  refine ⟨R, hR, hRr, hRc, fun j hj => ?_⟩
  rw [hRv 0 j (by decide) hj, hmin, hN]
  simp [ComputeKernelMatrixDecomposition, diagSolver, identityKernel]

end statismo
